import Mathlib

/-!
Verification of the sumariza-ai scraper core against its specification.

The Go source is shallowly embedded over `List Char` ("Str" below): Go strings
become character lists, the regular-expression rewrites of
`internal/adapters/scraper/parser.go` become explicit recursive scanners with
the same leftmost / maximal-munch semantics, and the mutex-guarded browser
pool of `internal/adapters/scraper/chromedp.go` becomes a small-step
transition system over caller program counters.
-/

namespace SumarizaAI

/-- Go strings are modelled as lists of characters (runes). -/
abbrev Str := List Char

/-- String-literal helper: the character list of a Lean string literal. -/
def lit (s : String) : Str := s.toList

/-- Character class of Go's regexp `[^\S\n]` (RE2 `\s` is ASCII `[\t\n\f\r ]`,
so horizontal whitespace is `[\t\f\r ]`), used by `cleanTextPreserveNewlines`. -/
def isHW (c : Char) : Bool :=
  c = ' ' || c = '\t' || c = Char.ofNat 12 || c = '\r'

/-- Character class of Go's regexp `\s` (RE2 ASCII): `[\t\n\f\r ]`.
Used by `cleanText` (`\s+` collapsing) and by the `<br\s*/?\s*>` rewrite. -/
def isGoWS (c : Char) : Bool :=
  c = ' ' || c = '\t' || c = '\n' || c = Char.ofNat 12 || c = '\r'

/-- Go's `unicode.IsSpace`, the class trimmed by `strings.TrimSpace` and the
separator class of `strings.Fields`: ASCII whitespace (including vertical tab)
plus NEL, NBSP and the Unicode White_Space code points. -/
def isUSpace (c : Char) : Bool :=
  (9 ≤ c.toNat && c.toNat ≤ 13) || c = ' ' ||
  c.toNat = 0x85 || c.toNat = 0xA0 || c.toNat = 0x1680 ||
  (0x2000 ≤ c.toNat && c.toNat ≤ 0x200A) ||
  c.toNat = 0x2028 || c.toNat = 0x2029 || c.toNat = 0x202F ||
  c.toNat = 0x205F || c.toNat = 0x3000

/-- Replacement of every maximal run of characters satisfying `p` by the
single character `tok`; the flag records whether the previous character was
inside a run.  This is Go's `re.ReplaceAllString(s, tok)` for a pattern
`[class]+`: RE2 finds the leftmost match, `+` is greedy, and scanning resumes
after the match, so each maximal run is rewritten to one `tok`.  Generic in
the element type so the same scanner also squashes runs of empty lines. -/
def squashAux {α : Type} (p : α → Bool) (tok : α) : Bool → List α → List α
  | _, [] => []
  | prev, c :: cs =>
    if p c then
      if prev then squashAux p tok true cs
      else tok :: squashAux p tok true cs
    else c :: squashAux p tok false cs

/-- First rewrite of `cleanTextPreserveNewlines`:
`regexp.MustCompile([^\S\n]+).ReplaceAllString(text, " ")`. -/
def collapseHW (cs : Str) : Str := squashAux isHW ' ' false cs

/-- First rewrite of `cleanText`:
`regexp.MustCompile(\s+).ReplaceAllString(text, " ")`. -/
def collapseWS (cs : Str) : Str := squashAux isGoWS ' ' false cs

/-- Scanner for the rewrite `regexp.MustCompile(\n{3,}).ReplaceAllString(text,
"\n\n")`: `n` counts the newline run read so far; a run of length `k` is
emitted as `min k 2` newlines (runs of one or two are left alone, longer runs
become exactly two). -/
def cnlAux : Nat → Str → Str
  | n, [] => List.replicate (min n 2) '\n'
  | n, c :: cs =>
    if c = '\n' then cnlAux (n + 1) cs
    else List.replicate (min n 2) '\n' ++ c :: cnlAux 0 cs

/-- Second rewrite of `cleanTextPreserveNewlines`: collapse runs of three or
more newlines to exactly two. -/
def collapseNL (cs : Str) : Str := cnlAux 0 cs

/-- Helper for `splitOnChar`: prepend a character to the first piece. -/
def consHead (c : Char) : List Str → List Str
  | [] => [[c]]
  | l :: ls => (c :: l) :: ls

/-- Go's `strings.Split(s, sep)` for a one-character separator: the pieces
between occurrences of `sep` (always at least one piece). -/
def splitOnChar (sep : Char) : Str → List Str
  | [] => [[]]
  | c :: cs => if c = sep then [] :: splitOnChar sep cs else consHead c (splitOnChar sep cs)

/-- The line decomposition `strings.Split(text, "\n")`. -/
def splitNL : Str → List Str := splitOnChar '\n'

/-- Go's `strings.Join(lines, "\n")`, inverse of `splitNL`. -/
def joinNL : List Str → Str
  | [] => []
  | [l] => l
  | l :: l' :: ls => l ++ '\n' :: joinNL (l' :: ls)

/-- Left trim of `strings.TrimSpace`. -/
def trimLeftWS (cs : Str) : Str := cs.dropWhile isUSpace

/-- Right trim of `strings.TrimSpace`. -/
def trimRightWS (cs : Str) : Str := (cs.reverse.dropWhile isUSpace).reverse

/-- Go's `strings.TrimSpace`: drop leading and trailing `unicode.IsSpace`
characters. -/
def trimSpace (cs : Str) : Str := trimLeftWS (trimRightWS cs)

/-- Embedding of `cleanText` (parser.go): collapse `\s+` runs to one space,
then `strings.TrimSpace`. -/
def cleanText (text : Str) : Str := trimSpace (collapseWS text)

/-- Embedding of `cleanTextPreserveNewlines` (parser.go): collapse horizontal
whitespace runs to one space, collapse three-or-more newline runs to two, trim
every line, and trim the whole result. -/
def cleanTextPreserveNewlines (text : Str) : Str :=
  let t1 := collapseHW text
  let t2 := collapseNL t1
  let lines := (splitNL t2).map trimSpace
  trimSpace (joinNL lines)

/-! ## Substring machinery

The parser works by regular-expression search over the raw document.  The
scanners below realize the handful of RE2 pattern shapes the source uses, with
RE2's leftmost search and greedy/lazy repetition made explicit. -/

/-- Split `cs` at the first occurrence of the literal `pat`:
`some (before, after)` with `cs = before ++ pat ++ after` and no occurrence of
`pat` beginning inside `before`.  `none` when `pat` does not occur.  This is
simultaneously Go's `strings.Index` and the lazy capture `([\s\S]*?)pat`. -/
def splitAtLit? (pat : Str) : Str → Option (Str × Str)
  | [] => if pat.isEmpty then some ([], []) else none
  | c :: cs =>
    if pat.isPrefixOf (c :: cs) then some ([], (c :: cs).drop pat.length)
    else
      match splitAtLit? pat cs with
      | some (b, a) => some (c :: b, a)
      | none => none

/-- Go's `strings.Contains`. -/
def containsSub (cs pat : Str) : Bool := (splitAtLit? pat cs).isSome

/-- No occurrence of `pat` begins strictly before position `pre.length` in any
string of the form `pre ++ pat ++ after`: equivalently, `pat` does not occur
in `pre ++ pat.dropLast` (the first `pre.length + pat.length - 1`
characters). -/
def noOccBefore (pat pre : Str) : Prop :=
  containsSub (pre ++ pat.dropLast) pat = false

instance (pat pre : Str) : Decidable (noOccBefore pat pre) :=
  inferInstanceAs (Decidable (_ = _))

/-- Scanner state for `stripTags`: the flag says whether the scan is inside a
tag (between a matched `<` and its closing `>`). -/
def stripTagsAux : Bool → Str → Str
  | _, [] => []
  | true, c :: cs => if c = '>' then stripTagsAux false cs else stripTagsAux true cs
  | false, c :: cs =>
    if c = '<' && cs.contains '>' then stripTagsAux true cs
    else c :: stripTagsAux false cs

/-- Removal of every HTML tag, the rewrite
`regexp.MustCompile(<[^>]*>).ReplaceAllString(html, "")`: at each `<` that has
a later `>`, the leftmost match spans to the first `>` (RE2's `[^>]*` cannot
cross it), and scanning resumes after that `>`; a `<` with no later `>` starts
no match (the lookahead check), and with no `>` at all no later character can
start one either, so the remainder is emitted verbatim. -/
def stripTags (cs : Str) : Str := stripTagsAux false cs

/-- Embedding of `stripHTML` (parser.go): strip every tag, then `cleanText`. -/
def stripHTML (html : Str) : Str := cleanText (stripTags html)

/-- Scanner for `replaceAllLit`: `skip` counts characters of an already
matched occurrence still to be consumed without emission. -/
def replaceAllLitAux (p : Char) (ps rep : Str) : Nat → Str → Str
  | _, [] => []
  | skip + 1, _ :: cs => replaceAllLitAux p ps rep skip cs
  | 0, c :: cs =>
    if (p :: ps).isPrefixOf (c :: cs) then
      rep ++ replaceAllLitAux p ps rep ps.length cs
    else c :: replaceAllLitAux p ps rep 0 cs

/-- Go's `re.ReplaceAllString` for a nonempty literal pattern `p :: ps`:
replace each leftmost, non-overlapping occurrence by `rep`. -/
def replaceAllLit (p : Char) (ps rep cs : Str) : Str := replaceAllLitAux p ps rep 0 cs

/-- After `<br` and its first whitespace run, an optional `/` followed by more
whitespace.  Helper for `matchBr?`. -/
def brTail (r1 : Str) : Str :=
  if r1.head? = some '/' then r1.tail.dropWhile isGoWS else r1

/-- Matcher for the line-break pattern `<br\s*/?\s*>` at the head of the
input, returning the rest on success.  The character classes `\s`, `/` and `>`
are disjoint, so RE2's greedy `\s*` and optional `/?` reduce to this
deterministic maximal munch. -/
def matchBr? : Str → Option Str
  | '<' :: 'b' :: 'r' :: rest =>
    if (brTail (rest.dropWhile isGoWS)).head? = some '>'
    then some (brTail (rest.dropWhile isGoWS)).tail
    else none
  | _ => none

/-- Scanner for `replaceBr`; `skip` as in `replaceAllLitAux`. -/
def replaceBrAux : Nat → Str → Str
  | _, [] => []
  | skip + 1, _ :: cs => replaceBrAux skip cs
  | 0, c :: cs =>
    match matchBr? (c :: cs) with
    | some rest => '\n' :: replaceBrAux (cs.length - rest.length) cs
    | none => c :: replaceBrAux 0 cs

/-- The rewrite `regexp.MustCompile(<br\s*/?\s*>).ReplaceAllString(html, "\n")`
in `stripHTMLKeepLinks`: each leftmost `<br…>` match becomes one newline and
scanning resumes after it (the skip count is the matched length minus the
already consumed head character). -/
def replaceBr (cs : Str) : Str := replaceBrAux 0 cs

/-! ## The domain model (internal/domain/tweet.go)

Go's string-typed enumerations (`VerifiedType`, `TextDirection`) are kept as
strings so that the zero value `""` is distinguishable from the declared
constants, exactly as in Go. -/

/-- The constant `domain.VerifiedNone` = "none". -/
def VerifiedNone : Str := lit "none"

/-- The constant `domain.VerifiedBlue` = "blue". -/
def VerifiedBlue : Str := lit "blue"

/-- The constant `domain.VerifiedGold` = "gold". -/
def VerifiedGold : Str := lit "gold"

/-- The constant `domain.VerifiedGray` = "gray". -/
def VerifiedGray : Str := lit "gray"

/-- The constant `domain.LTR` = "ltr". -/
def LTR : Str := lit "ltr"

/-- The constant `domain.RTL` = "rtl". -/
def RTL : Str := lit "rtl"

/-- `domain.Author`.  `VerifiedType` is a Go string; its zero value is `""`
(the empty list), not the constant `VerifiedNone`. -/
structure Author where
  Name : Str := []
  Handle : Str := []
  AvatarURL : Str := []
  Verified : Bool := false
  VerifiedType : Str := []
deriving DecidableEq, Repr

/-- `domain.QuotedTweet`: a quoted tweet, one level deep only. -/
structure QuotedTweet where
  ID : Str := []
  URL : Str := []
  Author : Author := {}
  Text : Str := []
deriving DecidableEq, Repr

/-- `domain.Content`.  `time.Time` is modelled as `Option Str`: `none` is the
zero `time.Time{}`, `some s` a successfully parsed `datetime` attribute `s`. -/
structure Content where
  Text : Str := []
  CreatedAt : Option Str := none
  QuotedTweet : Option QuotedTweet := none
  Direction : Str := []
deriving DecidableEq, Repr

/-- `domain.Tweet`. -/
structure Tweet where
  ID : Str := []
  URL : Str := []
  Username : Str := []
  Author : Author := {}
  Content : Content := {}
  Partial : Bool := false
deriving DecidableEq, Repr

/-! ## Field extractors (internal/adapters/scraper/parser.go) -/

/-- The regex `LIT[^>]*>([\s\S]*?)TERM` used by `extractTweetText` and
`extractNameAndHandle`: at the first occurrence of the literal `start`,
consume through the next `>` (RE2's greedy `[^>]*` cannot cross it) and
capture lazily up to the first occurrence of `term`.  Taking only the first
occurrence of `start` is faithful: when it fails (no later `>`, or no later
`term`), every later occurrence fails for the same reason, so the regexp as a
whole fails. -/
def matchBlock (start term : Str) (html : Str) : Option (Str × Str) :=
  match splitAtLit? start html with
  | none => none
  | some (_, afterStart) =>
    match splitAtLit? ['>'] afterStart with
    | none => none
    | some (_, afterGt) =>
      match splitAtLit? term afterGt with
      | none => none
      | some (cap, rest) => some (cap, rest)

/-- The `data-testid="tweetText"` literal of the main-text regexes. -/
def tweetTextMarker : Str := lit "data-testid=\"tweetText\""

/-- The internal-link test of `preserveLinks`: `strings.HasPrefix(href, "/")`
or one of the four hashtag/search hosts as substrings. -/
def internalLink (href : Str) : Bool :=
  (lit "/").isPrefixOf href ||
  containsSub href (lit "twitter.com/hashtag") ||
  containsSub href (lit "twitter.com/search") ||
  containsSub href (lit "x.com/hashtag") ||
  containsSub href (lit "x.com/search")

/-- The replacement callback of `preserveLinks`: internal links keep their
visible label (tags stripped, padded by single spaces); external links become
the ` [[LINK:href]] ` marker carrying the full target URL, dropping the
label. -/
def anchorRepl (href label : Str) : Str :=
  if internalLink href then ' ' :: (stripHTML label ++ [' '])
  else lit " [[LINK:" ++ href ++ lit "]] "

/-- Matcher for `<a[^>]*href="([^"]+)"[^>]*>([\s\S]*?)</a>` at the head of the
input, returning `(href, label, rest)`.  The first `href="` occurrence is
committed to (its preceding run must be `>`-free); the capture `[^"]+` runs to
the next quote and must be nonempty; `[^>]*>` runs to the next `>`; the lazy
label runs to the first `</a>`.  RE2's backtracking would prefer the last
`>`-free `href="` occurrence; the two agree on every tag carrying a single
`href=`, which is the only case the theorems below quantify over. -/
def anchorAt? (rest : Str) : Option (Str × Str × Str) :=
  match splitAtLit? (lit "href=\"") rest with
  | none => none
  | some (attrs, afterHref) =>
    if attrs.contains '>' then none
    else
      match splitAtLit? ['"'] afterHref with
      | none => none
      | some (href, afterQuote) =>
        if href.isEmpty then none
        else
          match splitAtLit? ['>'] afterQuote with
          | none => none
          | some (_, afterGt) =>
            match splitAtLit? (lit "</a>") afterGt with
            | none => none
            | some (label, rest') => some (href, label, rest')

/-- The anchor matcher at the head of the input: the literal `<a`, then
`anchorAt?` for the rest of the pattern. -/
def matchAnchor? (cs : Str) : Option (Str × Str × Str) :=
  match cs with
  | c :: a :: rest => if c = '<' then if a = 'a' then anchorAt? rest else none else none
  | _ => none

/-- Scanner for `preserveLinks`; `skip` as in `replaceAllLitAux`. -/
def preserveLinksAux : Nat → Str → Str
  | _, [] => []
  | skip + 1, _ :: cs => preserveLinksAux skip cs
  | 0, c :: cs =>
    match matchAnchor? (c :: cs) with
    | some (href, label, rest) =>
      anchorRepl href label ++ preserveLinksAux (cs.length - rest.length) cs
    | none => c :: preserveLinksAux 0 cs

/-- Embedding of `preserveLinks` (parser.go):
`ReplaceAllStringFunc` over the anchor regex — each leftmost, non-overlapping
anchor match is rewritten by `anchorRepl`, scanning resuming after the
match. -/
def preserveLinks (cs : Str) : Str := preserveLinksAux 0 cs

/-- Embedding of `stripHTMLKeepLinks` (parser.go): `<br…>` then `</div>` then
`</p>` become newlines, then every remaining tag is removed. -/
def stripHTMLKeepLinks (html : Str) : Str :=
  let h1 := replaceBr html
  let h2 := replaceAllLit '<' (lit "/div>") ['\n'] h1
  let h3 := replaceAllLit '<' (lit "/p>") ['\n'] h2
  stripTags h3

/-- Embedding of `extractTweetText` (parser.go): capture the `tweetText` block
(up to `</div>`, falling back to `<div`), expand links, drop `</span>`, strip
tags converting line breaks, and normalize. -/
def extractTweetText (html : Str) : Str :=
  let cap? :=
    match matchBlock tweetTextMarker (lit "</div>") html with
    | some (cap, _) => some cap
    | none =>
      match matchBlock tweetTextMarker (lit "<div") html with
      | some (cap, _) => some cap
      | none => none
  match cap? with
  | none => []
  | some content =>
    let c1 := preserveLinks content
    let c2 := replaceAllLit '<' (lit "/span>") [] c1
    let c3 := stripHTMLKeepLinks c2
    cleanTextPreserveNewlines c3

/-- Scanner for Go's `strings.Fields`: split around runs of `unicode.IsSpace`
characters; `acc` is the reversed current word. -/
def fieldsAux (acc : Str) : Str → List Str
  | [] => if acc.isEmpty then [] else [acc.reverse]
  | c :: cs =>
    if isUSpace c then
      if acc.isEmpty then fieldsAux [] cs else acc.reverse :: fieldsAux [] cs
    else fieldsAux (c :: acc) cs

/-- Go's `strings.Fields`. -/
def fields (cs : Str) : List Str := fieldsAux [] cs

/-- The `data-testid="User-Name"` literal of `extractNameAndHandle`. -/
def userNameMarker : Str := lit "data-testid=\"User-Name\""

/-- Embedding of `extractNameAndHandle` (parser.go): capture the `User-Name`
block up to `</div></div></div>`, strip and clean it, split at `@`; with at
least two pieces the first is the display name and the first word of the
second piece is the handle; with one piece the whole text is the name. -/
def extractNameAndHandle (html : Str) : Str × Str :=
  match matchBlock userNameMarker (lit "</div></div></div>") html with
  | none => ([], [])
  | some (cap, _) =>
    let content := cleanText (stripHTML cap)
    match splitOnChar '@' content with
    | [] => ([], [])
    | [p0] => (cleanText p0, [])
    | p0 :: p1 :: _ =>
      let name := cleanText p0
      let handleWords := fields (cleanText p1)
      (name, handleWords.headD [])

/-- The class `[a-zA-Z0-9_]` of the handle regex. -/
def isWordChar (c : Char) : Bool := c.isAlpha || c.isDigit || c = '_'

/-- Attempt of the pattern `href="/([a-zA-Z0-9_]+)/status/` at the head of the
input: after the literal, the greedy `[a-zA-Z0-9_]+` runs to the first
non-word character (it cannot cross one), must be nonempty, and must be
followed by `/status/`. -/
def statusLinkAt? (cs : Str) : Option Str :=
  if (lit "href=\"/").isPrefixOf cs then
    let rest := cs.drop 7
    let run := rest.takeWhile isWordChar
    if !run.isEmpty && (lit "/status/").isPrefixOf (rest.dropWhile isWordChar) then some run
    else none
  else none

/-- Embedding of `extractHandleFromURL` (parser.go): the first position where
`href="/([a-zA-Z0-9_]+)/status/` matches yields the captured handle (RE2
returns the leftmost match; on failure the scan advances one character). -/
def extractHandleFromURL : Str → Str
  | [] => []
  | c :: cs =>
    match statusLinkAt? (c :: cs) with
    | some run => run
    | none => extractHandleFromURL cs

/-- The `data-testid="Tweet-User-Avatar"` literal of `extractAvatar`. -/
def avatarMarker : Str := lit "data-testid=\"Tweet-User-Avatar\""

/-- Attempt of the avatar-pattern suffix `[^>]*>.*?<img[^>]*src="([^"]+)"`
starting right after the marker: through the next `>`, then the first `<img`
with no newline in the gap (RE2's `.` does not match `\n`), then the first
`src="` in a `>`-free run, then a nonempty capture to the closing quote.
RE2's backtracking would try later `<img` and `src="` occurrences when an
inner step fails; this embedding commits to the first ones, which agree on
documents with a single avatar image tag. -/
def avatarSrcAt? (cs : Str) : Option Str :=
  match splitAtLit? ['>'] cs with
  | none => none
  | some (_, afterGt) =>
    match splitAtLit? (lit "<img") afterGt with
    | none => none
    | some (gap, afterImg) =>
      if gap.contains '\n' then none
      else
        match splitAtLit? (lit "src=\"") afterImg with
        | none => none
        | some (attrs, afterSrc) =>
          if attrs.contains '>' then none
          else
            match splitAtLit? ['"'] afterSrc with
            | none => none
            | some (url, _) => if url.isEmpty then none else some url

/-- Embedding of `extractAvatar` (parser.go): at each occurrence of the avatar
marker, attempt the rest of the pattern; the first success yields the captured
URL. -/
def extractAvatar : Str → Str
  | [] => []
  | c :: cs =>
    if avatarMarker.isPrefixOf (c :: cs) then
      match avatarSrcAt? ((c :: cs).drop avatarMarker.length) with
      | some url => url
      | none => extractAvatar cs
    else extractAvatar cs

/-- Embedding of `extractTextDirection` (parser.go): the document contains
`dir="rtl"` or the direction defaults to LTR. -/
def extractTextDirection (html : Str) : Str :=
  if containsSub html (lit "dir=\"rtl\"") then RTL else LTR

/-- Validity of an RFC 3339 timezone suffix: `Z` or `±hh:mm`. -/
def tzValid : Str → Bool
  | ['Z'] => true
  | [sgn, a, b, ':', c, d] =>
    (sgn = '+' || sgn = '-') && a.isDigit && b.isDigit && c.isDigit && d.isDigit
  | _ => false

/-- Optional fractional seconds before the timezone suffix. -/
def fracThenTz : Str → Bool
  | '.' :: rest =>
    !(rest.takeWhile Char.isDigit).isEmpty && tzValid (rest.dropWhile Char.isDigit)
  | rest => tzValid rest

/-- Simplified embedding of `time.Parse(time.RFC3339, s)` success: the layout
`YYYY-MM-DDThh:mm:ss` with optional fraction and a `Z`/`±hh:mm` zone, all
digit positions checked.  (Go additionally range-checks the components; no
claim depends on that refinement.) -/
def rfc3339Valid : Str → Bool
  | y1 :: y2 :: y3 :: y4 :: '-' :: m1 :: m2 :: '-' :: d1 :: d2 :: 'T' ::
      h1 :: h2 :: ':' :: n1 :: n2 :: ':' :: s1 :: s2 :: rest =>
    [y1, y2, y3, y4, m1, m2, d1, d2, h1, h2, n1, n2, s1, s2].all Char.isDigit &&
    fracThenTz rest
  | _ => false

/-- Attempt of the datetime-pattern suffix `[^>]*datetime="([^"]+)"` after a
`<time` literal. -/
def datetimeAt? (cs : Str) : Option Str :=
  match splitAtLit? (lit "datetime=\"") cs with
  | none => none
  | some (attrs, afterDt) =>
    if attrs.contains '>' then none
    else
      match splitAtLit? ['"'] afterDt with
      | none => none
      | some (v, _) => if v.isEmpty then none else some v

/-- The raw capture of the `<time[^>]*datetime="([^"]+)"` regex of
`extractTimestamp`. -/
def extractTimestampRaw : Str → Option Str
  | [] => none
  | c :: cs =>
    if (lit "<time").isPrefixOf (c :: cs) then
      match datetimeAt? ((c :: cs).drop 5) with
      | some v => some v
      | none => extractTimestampRaw cs
    else extractTimestampRaw cs

/-- Embedding of `extractTimestamp` (parser.go): the captured `datetime`
attribute when it parses as RFC 3339, otherwise the zero time (`none`). -/
def extractTimestamp (html : Str) : Option Str :=
  match extractTimestampRaw html with
  | some v => if rfc3339Valid v then some v else none
  | none => none

/-- The `data-testid="quoteTweet"` literal of `extractQuotedTweet`. -/
def quoteMarker : Str := lit "data-testid=\"quoteTweet\""

/-- Embedding of `extractQuotedTweet` (parser.go): `nil` unless the quote
marker is present; then the regex
`quoteMarker[\s\S]*?tweetTextMarker[^>]*>([^<]+)` captures, lazily, the first
immediate text run of the first tweet-text block after the first quote marker;
on success only the `Text` field is populated.  (RE2 would backtrack to later
tweet-text blocks when the capture is empty; this embedding commits to the
first, the case every theorem below restricts to.) -/
def extractQuotedTweet (html : Str) : Option QuotedTweet :=
  if containsSub html quoteMarker then
    match splitAtLit? quoteMarker html with
    | none => none
    | some (_, afterQ) =>
      match splitAtLit? tweetTextMarker afterQ with
      | none => none
      | some (_, afterTT) =>
        match splitAtLit? ['>'] afterTT with
        | none => none
        | some (_, afterGt) =>
          let cap := afterGt.takeWhile (fun c => !(c = '<'))
          if cap.isEmpty then none
          else some { Text := cleanText cap }
  else none

/-- Embedding of `detectVerifiedType` (parser.go): the badge tier from raw
substring checks over the whole document — `gold`/`Gold` anywhere means gold,
else `gray`/`Gray` anywhere means gray, else blue. -/
def detectVerifiedType (html : Str) : Str :=
  if containsSub html (lit "gold") || containsSub html (lit "Gold") then VerifiedGold
  else if containsSub html (lit "gray") || containsSub html (lit "Gray") then VerifiedGray
  else VerifiedBlue

/-- The `data-testid="icon-verified"` literal of `parseAuthor`. -/
def verifiedMarker : Str := lit "data-testid=\"icon-verified\""

/-- Embedding of `parseAuthor` (parser.go).  The second component is the
`partial` flag: set when the name is missing, when both handle extractions
fail, or when the avatar is missing.  `Verified`/`VerifiedType` are populated
only when the verified-icon marker occurs; otherwise they keep the zero values
`false` and `""`. -/
def parseAuthor (html : Str) : Author × Bool :=
  let nh := extractNameAndHandle html
  let p1 := nh.1.isEmpty
  let hp :=
    if !nh.2.isEmpty then (nh.2, false)
    else
      let m := extractHandleFromURL html
      if !m.isEmpty then (m, false) else (([] : Str), true)
  let av := extractAvatar html
  let p3 := av.isEmpty
  let verified := containsSub html verifiedMarker
  ({ Name := nh.1, Handle := hp.1, AvatarURL := av,
     Verified := verified,
     VerifiedType := if verified then detectVerifiedType html else [] },
   p1 || hp.2 || p3)

/-- Embedding of `parseContent` (parser.go). -/
def parseContent (html : Str) : Content :=
  { Text := extractTweetText html,
    Direction := extractTextDirection html,
    CreatedAt := extractTimestamp html,
    QuotedTweet := extractQuotedTweet html }

/-- Embedding of `parseHTML` (parser.go): the tweet with author and content
filled in, plus the `partial` flag from the author extraction. -/
def parseHTML (html tweetID : Str) : Tweet × Bool :=
  let ap := parseAuthor html
  ({ ID := tweetID, Author := ap.1, Content := parseContent html }, ap.2)

/-- The two domain errors `Scrape` can return. -/
inductive DomainErr
  | scrapingFailed
  | textNotFound
deriving DecidableEq, Repr

/-- Embedding of the post-fetch logic of `Scrape` (parser.go): a failed
browser fetch maps to `ErrScrapingFailed`; on success the document is parsed,
an empty main text maps to `ErrTextNotFound`, and otherwise the tweet is
returned with its `Partial` flag set. -/
def scrape (fetched : Except Unit Str) (tweetID : Str) : Except DomainErr Tweet :=
  match fetched with
  | .error _ => .error .scrapingFailed
  | .ok html =>
    let pt := parseHTML html tweetID
    if pt.1.Content.Text.isEmpty then .error .textNotFound
    else .ok { pt.1 with Partial := pt.2 }

/-! ## The cache key (internal/adapters/cache/memory.go) -/

/-- Embedding of `NormalizedKey`: `fmt.Sprintf("/%s/status/%s", username,
tweetID)`. -/
def normalizedKey (username tweetID : Str) : Str :=
  '/' :: username ++ lit "/status/" ++ tweetID

/-! ## The browser pool (internal/adapters/scraper/chromedp.go)

`Execute` and `WithTabCtx` share one structure: `bp.mu.Lock()` with a deferred
`Unlock`, the caller-context check, `ensureBrowserRunning`, the
caller-supplied step/action sequence against the tab, best-effort cleanup plus
idle-timer reset, and the deferred unlock on every exit path.  The mutex `mu`
is the capacity-1 admission slot.  The model is a small-step interleaving of
`n` callers, each with a program counter over that structure; a fault (panic)
inside the caller-supplied step jumps directly to the deferred unlock,
skipping the cleanup lines, exactly as a Go panic runs only the deferred
statements. -/

/-- Program counter of one caller of `Execute`/`WithTabCtx`. -/
inductive PoolPC
  | waiting
  | ctxCheck
  | ensure
  | inStep
  | cleanup
  | unlock
  | done
deriving DecidableEq, Repr

/-- Whether a program counter is inside the mutex-protected region (after
`Lock()` returned, before the deferred `Unlock()` ran). -/
def PoolPC.holding : PoolPC → Bool
  | .waiting => false
  | .done => false
  | _ => true

/-- Global state: each caller's program counter, and the mutex holder. -/
structure PoolState (n : Nat) where
  pc : Fin n → PoolPC
  slot : Option (Fin n)

/-- All callers about to call `Execute`/`WithTabCtx`, mutex free. -/
def initState (n : Nat) : PoolState n := ⟨fun _ => .waiting, none⟩

/-- Pointwise update of the program-counter map. -/
def setPC {n : Nat} (s : PoolState n) (i : Fin n) (v : PoolPC) : Fin n → PoolPC :=
  fun j => if j = i then v else s.pc j

/-- One interleaved step of the pool: `lock` is `bp.mu.Lock()` returning
(only when the mutex is free); `ctxCancelled`/`ctxOk` is the `ctx.Err()`
check; `ensureFail`/`ensureOk` is `ensureBrowserRunning`; `stepReturn` is the
caller-supplied function returning (with or without error), `stepPanic` a
fault inside it; `cleaned` is `cleanTab` plus `resetIdleTimer`; `release` is
the deferred `bp.mu.Unlock()`. -/
inductive PoolStep {n : Nat} : PoolState n → PoolState n → Prop
  | lock (s : PoolState n) (i : Fin n) :
      s.pc i = .waiting → s.slot = none → PoolStep s ⟨setPC s i .ctxCheck, some i⟩
  | ctxCancelled (s : PoolState n) (i : Fin n) :
      s.pc i = .ctxCheck → PoolStep s ⟨setPC s i .unlock, s.slot⟩
  | ctxOk (s : PoolState n) (i : Fin n) :
      s.pc i = .ctxCheck → PoolStep s ⟨setPC s i .ensure, s.slot⟩
  | ensureFail (s : PoolState n) (i : Fin n) :
      s.pc i = .ensure → PoolStep s ⟨setPC s i .unlock, s.slot⟩
  | ensureOk (s : PoolState n) (i : Fin n) :
      s.pc i = .ensure → PoolStep s ⟨setPC s i .inStep, s.slot⟩
  | stepReturn (s : PoolState n) (i : Fin n) :
      s.pc i = .inStep → PoolStep s ⟨setPC s i .cleanup, s.slot⟩
  | stepPanic (s : PoolState n) (i : Fin n) :
      s.pc i = .inStep → PoolStep s ⟨setPC s i .unlock, s.slot⟩
  | cleaned (s : PoolState n) (i : Fin n) :
      s.pc i = .cleanup → PoolStep s ⟨setPC s i .unlock, s.slot⟩
  | release (s : PoolState n) (i : Fin n) :
      s.pc i = .unlock → PoolStep s ⟨setPC s i .done, none⟩

/-- States reachable from the initial state by interleaved steps. -/
inductive PoolReachable {n : Nat} : PoolState n → Prop
  | init : PoolReachable (initState n)
  | step {s t : PoolState n} : PoolReachable s → PoolStep s t → PoolReachable t

/-- The mutex invariant: a caller's program counter is inside the protected
region exactly when it holds the slot. -/
def PoolInv {n : Nat} (s : PoolState n) : Prop :=
  ∀ i, ((s.pc i).holding = true ↔ s.slot = some i)

/-! ## Cancellation wiring of Scrape (parser.go lines 30-50, chromedp.go
lines 281-283)

A Go context is modelled by its `Err()` signal observed at successive
checkpoints (`t` counts completed browser steps); `context.Background()`
never reports an error. -/

/-- Model of a `context.Context`. -/
structure CtxModel where
  errAt : Nat → Bool

/-- `context.Background()`. -/
def background : CtxModel := ⟨fun _ => false⟩

/-- The four browser steps `Scrape` submits. -/
inductive ScrapeStep
  | navigate
  | waitContainer
  | waitText
  | captureHTML
deriving DecidableEq, Repr

/-- `chromedp.Run(ctx, actions...)`: the actions run in order, and before
each one the run observes the context it was given; a fired context aborts
the remaining actions.  Returns the executed steps and whether the run was
aborted by the context. -/
def chromedpRun (ctx : CtxModel) : Nat → List ScrapeStep → List ScrapeStep × Bool
  | _, [] => ([], false)
  | t, a :: rest =>
    if ctx.errAt t then ([], true)
    else
      let r := chromedpRun ctx (t + 1) rest
      (a :: r.1, r.2)

/-- `WithTabCtx(ctx, fn)` (chromedp.go): after acquiring the mutex it checks
`ctx.Err()` once, then runs `fn` with the pool's `tabCtx` — not with the
caller's context. -/
def withTabCtx (callerCtx tabCtx : CtxModel)
    (fn : CtxModel → List ScrapeStep × Bool) : List ScrapeStep × Bool :=
  if callerCtx.errAt 0 then ([], true)
  else fn tabCtx

/-- `WithTab(fn)` (chromedp.go lines 281-283):
`WithTabCtx(context.Background(), fn)`. -/
def withTab (tabCtx : CtxModel) (fn : CtxModel → List ScrapeStep × Bool) :
    List ScrapeStep × Bool :=
  withTabCtx background tabCtx fn

/-- The step sequence of `Scrape`: navigate, wait for the container, wait for
the text, capture the document. -/
def scrapeSteps : List ScrapeStep :=
  [.navigate, .waitContainer, .waitText, .captureHTML]

set_option linter.unusedVariables false in
/-- The fetch phase of `Scrape` (parser.go lines 30-50): the caller's context
`ctx` is received but the step sequence is submitted through `WithTab`, i.e.
with `context.Background()` as the admission context and the pool's `tabCtx`
as the step context; the caller's signal is passed to neither. -/
def scrapeFetch (ctx tabCtx : CtxModel) : List ScrapeStep × Bool :=
  withTab tabCtx (fun tc => chromedpRun tc 0 scrapeSteps)

/-- An example four-step run of a single caller that panics inside the step
callback and exits: lock, context check passes, ensure succeeds, the step
panics, the deferred unlock runs. -/
def poolEx1 : PoolState 1 := ⟨setPC (initState 1) 0 .ctxCheck, some 0⟩

def poolEx2 : PoolState 1 := ⟨setPC poolEx1 0 .ensure, poolEx1.slot⟩

def poolEx3 : PoolState 1 := ⟨setPC poolEx2 0 .inStep, poolEx2.slot⟩

def poolEx4 : PoolState 1 := ⟨setPC poolEx3 0 .unlock, poolEx3.slot⟩

def poolEx5 : PoolState 1 := ⟨setPC poolEx4 0 .done, none⟩

/-- The part of an anchor element after `<a`, shaped as the anchor regex
decomposes it: a space and further attribute text, `href="`, the URL, the
closing quote, more attribute text, the tag close, the visible label, and
`</a>`, followed by the rest of the document. -/
def ankRest (attrs href attrs2 label post : Str) : Str :=
  (' ' :: attrs) ++ lit "href=\"" ++
    (href ++ ['"'] ++ (attrs2 ++ ['>'] ++ (label ++ lit "</a>" ++ post)))

/-- The anchor body without the trailing document rest. -/
def ankBody (attrs href attrs2 label : Str) : Str :=
  (' ' :: attrs) ++ lit "href=\"" ++
    (href ++ ['"'] ++ (attrs2 ++ ['>'] ++ (label ++ lit "</a>")))

/-! ## Line-level infrastructure for the normalizer

The second-application fixed point of `cleanTextPreserveNewlines` is proved by
viewing a string as its list of newline-separated lines: each pipeline stage
acts on lines (`collapseHW` within each line, the newline collapse as a
squash of empty-line runs, the trims at line ends and at the line-list
boundary). -/

/-- Drop leading empty lines. -/
def dropEmptyL (ls : List Str) : List Str := ls.dropWhile (fun l => l.isEmpty)

/-- Drop trailing empty lines. -/
def dropEmptyR (ls : List Str) : List Str :=
  (ls.reverse.dropWhile (fun l => l.isEmpty)).reverse

/-- Drop empty lines at both ends (right first, then left, matching
`TrimSpace`'s composition). -/
def boundaryTrim (ls : List Str) : List Str := dropEmptyL (dropEmptyR ls)

/-- Collapse each run of consecutive empty lines to a single one: the
line picture of the newline-collapse rewrite between nonempty boundary
lines. -/
def dedupEmpty (ls : List Str) : List Str := squashAux (fun l => l.isEmpty) [] false ls

/-- Length of a `dropWhile` never exceeds the input's. -/
theorem dropWhileLenLe {α : Type} (p : α → Bool) (l : List α) :
    (l.dropWhile p).length ≤ l.length := by
  induction l with
  | nil => simp
  | cons c cs ih =>
    by_cases h : p c
    · rw [List.dropWhile_cons_of_pos h]
      exact le_trans ih (by simp)
    · rw [List.dropWhile_cons_of_neg h]

/-- Length of a tail never exceeds the input's. -/
theorem tailLenLe {α : Type} (l : List α) : l.tail.length ≤ l.length := by
  cases l <;> simp

/-- Decomposition underlying a successful `splitAtLit?`. -/
theorem splitAtLit?_eq {pat cs b a : Str} (h : splitAtLit? pat cs = some (b, a)) :
    cs = b ++ pat ++ a := by
  induction cs generalizing b a with
  | nil =>
    by_cases hp : pat.isEmpty
    · have hpat : pat = [] := List.isEmpty_iff.mp hp
      subst hpat
      simp [splitAtLit?] at h
      simp [h.1, h.2]
    · simp [splitAtLit?, hp] at h
  | cons c cs ih =>
    rw [splitAtLit?] at h
    by_cases hp : pat.isPrefixOf (c :: cs)
    · rw [if_pos hp] at h
      injection h with h'
      have hb : b = [] := (congrArg Prod.fst h').symm
      have ha : a = (c :: cs).drop pat.length := (congrArg Prod.snd h').symm
      subst hb
      subst ha
      obtain ⟨t, ht⟩ := List.isPrefixOf_iff_prefix.mp hp
      rw [← ht, List.drop_left]
      simp
    · rw [if_neg hp] at h
      cases hrec : splitAtLit? pat cs with
      | none => rw [hrec] at h; cases h
      | some ba =>
        obtain ⟨b', a'⟩ := ba
        rw [hrec] at h
        injection h with h'
        have hb : b = c :: b' := (congrArg Prod.fst h').symm
        have ha : a = a' := (congrArg Prod.snd h').symm
        subst hb
        subst ha
        simp [ih hrec]

/-- Length bound from a successful `splitAtLit?`. -/
theorem splitAtLit?_length {pat cs b a : Str} (h : splitAtLit? pat cs = some (b, a)) :
    b.length + pat.length + a.length = cs.length := by
  have := splitAtLit?_eq h
  subst this
  simp
  omega

/-- One unfolding step of `containsSub`. -/
theorem containsSub_cons (c : Char) (cs pat : Str) :
    containsSub (c :: cs) pat = (pat.isPrefixOf (c :: cs) || containsSub cs pat) := by
  unfold containsSub
  rw [splitAtLit?]
  by_cases hp : pat.isPrefixOf (c :: cs)
  · rw [if_pos hp, hp]
    simp
  · have hp' : pat.isPrefixOf (c :: cs) = false := by
      revert hp
      cases pat.isPrefixOf (c :: cs) <;> simp
    rw [if_neg hp, hp', Bool.false_or]
    cases hrec : splitAtLit? pat cs with
    | none => simp [hrec]
    | some ba =>
      obtain ⟨b, a⟩ := ba
      simp [hrec]

/-- A contained pattern is no longer than its container. -/
theorem containsSub_length {cs pat : Str} (h : containsSub cs pat = true) :
    pat.length ≤ cs.length := by
  unfold containsSub at h
  cases hs : splitAtLit? pat cs with
  | none => rw [hs] at h; cases h
  | some ba =>
    obtain ⟨b, a⟩ := ba
    have := splitAtLit?_length hs
    omega

/-- A prefix occurrence makes `containsSub` true. -/
theorem containsSub_of_isPrefixOf {cs pat : Str} (h : pat.isPrefixOf cs = true) :
    containsSub cs pat = true := by
  cases cs with
  | nil =>
    cases pat with
    | nil => decide
    | cons p ps => simp [List.isPrefixOf] at h
  | cons c cs =>
    rw [containsSub_cons, h]
    simp

/-- When the pattern's first character does not occur in `pre` and `tail` is
shorter than the pattern, the pattern does not occur in `pre ++ tail`. -/
theorem not_containsSub_of_head_notMem {h₀ : Char} {pt pre tail : Str}
    (hpre : h₀ ∉ pre) (htail : tail.length < (h₀ :: pt).length) :
    containsSub (pre ++ tail) (h₀ :: pt) = false := by
  induction pre with
  | nil =>
    simp only [List.nil_append]
    cases hval : containsSub tail (h₀ :: pt)
    · rfl
    · have := containsSub_length hval
      omega
  | cons c pre' ih =>
    have hc : c ≠ h₀ := fun he => hpre (he ▸ List.mem_cons_self c pre')
    have hpre' : h₀ ∉ pre' := fun hm => hpre (List.mem_cons_of_mem c hm)
    rw [List.cons_append, containsSub_cons]
    have h1 : (h₀ :: pt).isPrefixOf (c :: (pre' ++ tail)) = false := by
      simp [List.isPrefixOf]
      intro he
      exact absurd he.symm hc
    rw [h1, ih hpre']
    rfl

/-- With the pattern's head character absent from `pre`, no occurrence can
begin before the displayed one. -/
theorem noOccBefore_of_head_notMem {h₀ : Char} {pt pre : Str} (hpre : h₀ ∉ pre) :
    noOccBefore (h₀ :: pt) pre := by
  unfold noOccBefore
  exact not_containsSub_of_head_notMem hpre (by simp [List.length_dropLast])

/-- The splitting behaviour `noOccBefore` guarantees: the first occurrence of
`pat` in `pre ++ pat ++ after` is the displayed one. -/
theorem splitAtLit?_noOccBefore {pat : Str} (pre after : Str) (h : noOccBefore pat pre) :
    splitAtLit? pat (pre ++ pat ++ after) = some (pre, after) := by
  induction pre with
  | nil =>
    simp only [List.nil_append]
    cases pat with
    | nil =>
      cases after with
      | nil => rfl
      | cons c cs => rfl
    | cons p ps =>
      rw [List.cons_append, splitAtLit?]
      have hp : (p :: ps).isPrefixOf (p :: (ps ++ after)) = true := by
        have hpre : (p :: ps) <+: ((p :: ps) ++ after) := List.prefix_append _ _
        rw [List.cons_append] at hpre
        exact List.isPrefixOf_iff_prefix.mpr hpre
      rw [if_pos hp]
      have hdrop : ((p :: ps) ++ after).drop (p :: ps).length = after := List.drop_left _ _
      simp only [List.cons_append] at hdrop
      rw [hdrop]
  | cons c pre' ih =>
    by_cases hpat : pat = []
    · subst hpat
      exfalso
      unfold noOccBefore at h
      rw [List.cons_append, containsSub_cons] at h
      simp [List.isPrefixOf] at h
    · have hNoOcc' : noOccBefore pat pre' := by
        unfold noOccBefore at h ⊢
        rw [List.cons_append, containsSub_cons] at h
        revert h
        cases containsSub (pre' ++ pat.dropLast) pat <;> simp
      rw [List.cons_append, List.cons_append, splitAtLit?]
      have hp : ¬ pat.isPrefixOf (c :: (pre' ++ pat ++ after)) = true := by
        intro hpre
        have hd : pat.dropLast ++ [pat.getLast hpat] = pat :=
          List.dropLast_concat_getLast hpat
        have h3 : pat.dropLast ++ pat.getLast hpat :: after = pat ++ after := by
          conv_rhs => rw [← hd]
          rw [List.append_assoc]
          rfl
        have hbig : pat <+: (c :: pre') ++ pat.dropLast ++
            (pat.getLast hpat :: after) := by
          have h1 : pat <+: c :: (pre' ++ pat ++ after) :=
            List.isPrefixOf_iff_prefix.mp hpre
          have h2 : (c :: pre') ++ pat.dropLast ++ (pat.getLast hpat :: after) =
              c :: (pre' ++ pat ++ after) := by
            rw [List.append_assoc, h3]
            simp [List.cons_append, List.append_assoc]
          rw [h2]
          exact h1
        have hsmall : pat <+: (c :: pre') ++ pat.dropLast := by
          refine List.prefix_of_prefix_length_le hbig (List.prefix_append _ _) ?_
          have hplen : 1 ≤ pat.length := by
            cases pat with
            | nil => exact absurd rfl hpat
            | cons x xs => simp
          simp [List.length_dropLast]
          omega
        have : containsSub ((c :: pre') ++ pat.dropLast) pat = true :=
          containsSub_of_isPrefixOf (List.isPrefixOf_iff_prefix.mpr hsmall)
        unfold noOccBefore at h
        rw [this] at h
        cases h
      rw [if_neg hp, ih hNoOcc']

theorem poolInv_of_reachable {n : Nat} {s : PoolState n} (h : PoolReachable s) : PoolInv s := by
  induction h with
  | init =>
    intro i
    constructor
    · intro hh
      simp [initState, PoolPC.holding] at hh
    · intro hh
      simp [initState] at hh
  | step hr hs ih =>
    cases hs with
    | lock i hw hn =>
      intro j
      by_cases hji : j = i
      · subst hji
        simp [setPC, PoolPC.holding]
      · constructor
        · intro hh
          simp only [setPC, if_neg hji] at hh
          have := (ih j).mp hh
          rw [hn] at this
          cases this
        · intro hh
          simp only at hh
          injection hh with hh'
          exact absurd hh'.symm hji
    | ctxCancelled i hpc =>
      intro j
      by_cases hji : j = i
      · subst hji
        simp only [setPC, if_pos rfl]
        have := ih j
        rw [hpc] at this
        simpa [PoolPC.holding] using this
      · simp only [setPC, if_neg hji]
        exact ih j
    | ctxOk i hpc =>
      intro j
      by_cases hji : j = i
      · subst hji
        simp only [setPC, if_pos rfl]
        have := ih j
        rw [hpc] at this
        simpa [PoolPC.holding] using this
      · simp only [setPC, if_neg hji]
        exact ih j
    | ensureFail i hpc =>
      intro j
      by_cases hji : j = i
      · subst hji
        simp only [setPC, if_pos rfl]
        have := ih j
        rw [hpc] at this
        simpa [PoolPC.holding] using this
      · simp only [setPC, if_neg hji]
        exact ih j
    | ensureOk i hpc =>
      intro j
      by_cases hji : j = i
      · subst hji
        simp only [setPC, if_pos rfl]
        have := ih j
        rw [hpc] at this
        simpa [PoolPC.holding] using this
      · simp only [setPC, if_neg hji]
        exact ih j
    | stepReturn i hpc =>
      intro j
      by_cases hji : j = i
      · subst hji
        simp only [setPC, if_pos rfl]
        have := ih j
        rw [hpc] at this
        simpa [PoolPC.holding] using this
      · simp only [setPC, if_neg hji]
        exact ih j
    | stepPanic i hpc =>
      intro j
      by_cases hji : j = i
      · subst hji
        simp only [setPC, if_pos rfl]
        have := ih j
        rw [hpc] at this
        simpa [PoolPC.holding] using this
      · simp only [setPC, if_neg hji]
        exact ih j
    | cleaned i hpc =>
      intro j
      by_cases hji : j = i
      · subst hji
        simp only [setPC, if_pos rfl]
        have := ih j
        rw [hpc] at this
        simpa [PoolPC.holding] using this
      · simp only [setPC, if_neg hji]
        exact ih j
    | release i hpc =>
      have hslot := (ih i).mp (by rw [hpc]; rfl)
      intro j
      by_cases hji : j = i
      · subst hji
        simp [setPC, PoolPC.holding]
      · constructor
        · intro hh
          simp only [setPC, if_neg hji] at hh
          have hj := (ih j).mp hh
          rw [hslot] at hj
          injection hj with hj'
          exact absurd hj'.symm hji
        · intro hh
          exact Option.noConfusion hh

/-! ## Claim theorems -/

/-- C1: for every number of concurrent `run`/`Execute`/`WithTab` callers
against one browser pool, in every reachable interleaving at most one caller
is inside the browser-step critical section; a finished caller never retains
the admission slot (release happens on every exit path — context-check
return, ensure failure, step return, and step panic are all modelled); and
when no caller is inside the protected region the slot is free, so a
subsequent caller blocks only for normal acquisition. -/
theorem pool_mutual_exclusion {n : Nat} (s : PoolState n) (h : PoolReachable s) :
    (∀ i j : Fin n, s.pc i = .inStep → s.pc j = .inStep → i = j) ∧
    (∀ i : Fin n, s.pc i = .done → s.slot ≠ some i) ∧
    ((∀ i : Fin n, (s.pc i).holding = false) → s.slot = none) := by
  have inv := poolInv_of_reachable h
  refine ⟨?_, ?_, ?_⟩
  · intro i j hi hj
    have h1 := (inv i).mp (by rw [hi]; rfl)
    have h2 := (inv j).mp (by rw [hj]; rfl)
    rw [h1] at h2
    exact Option.some.inj h2
  · intro i hd hs
    have := (inv i).mpr hs
    rw [hd] at this
    exact Bool.noConfusion this
  · intro hall
    cases hslot : s.slot with
    | none => rfl
    | some i =>
      have := (inv i).mpr hslot
      rw [hall i] at this
      exact Bool.noConfusion this

theorem poolEx5_reachable : PoolReachable poolEx5 :=
  .step (.step (.step (.step (.step .init (.lock (initState 1) 0 rfl rfl))
    (.ctxOk poolEx1 0 rfl)) (.ensureOk poolEx2 0 rfl)) (.stepPanic poolEx3 0 rfl))
    (.release poolEx4 0 rfl)

theorem pool_mutual_exclusion_witness :
    poolEx5.pc 0 = .done ∧ poolEx5.slot ≠ some (0 : Fin 1) :=
  ⟨rfl, (pool_mutual_exclusion poolEx5 poolEx5_reachable).2.1 0 rfl⟩

/-- C2: when the browser-level fetch succeeded but the main-text field
resolves to the empty string, `Scrape` returns the distinct
`ErrTextNotFound` error and no record. -/
theorem scrape_empty_text_error (html tweetID : Str)
    (h : extractTweetText html = []) :
    scrape (.ok html) tweetID = .error .textNotFound := by
  unfold scrape parseHTML parseContent
  simp [h]

theorem scrape_empty_text_error_witness :
    extractTweetText (lit "<html><body>no tweet here</body></html>") = [] ∧
    scrape (.ok (lit "<html><body>no tweet here</body></html>")) (lit "123") =
      .error .textNotFound :=
  ⟨by decide, scrape_empty_text_error (lit "<html><body>no tweet here</body></html>")
    (lit "123") (by decide)⟩

/-- C3 (against the claim): `Scrape` never consults the caller's cancellation
signal.  It hands the four-step sequence to `WithTab`, which runs it under
`context.Background()` and the pool's tab context, so for every caller
context — including one cancelled before the first step — all four browser
steps execute and no abort happens at any checkpoint.  The second conjunct
shows the step runner itself does abort when a fired context is actually
given to it: the fault is the wiring in `Scrape`, which receives `ctx` and
then calls `s.pool.WithTab` instead of `s.pool.WithTabCtx(ctx, …)`. -/
theorem scrape_ignores_cancellation :
    (∀ ctx : CtxModel, scrapeFetch ctx background = (scrapeSteps, false)) ∧
    chromedpRun ⟨fun _ => true⟩ 0 scrapeSteps = ([], true) := by
  constructor
  · intro ctx
    rfl
  · rfl

/-- C10: with no verification marker in the document, extraction leaves
`Verified = false` and `VerifiedType` equal to the empty string (the Go zero
value); moreover the declared `VerifiedNone` ("none") constant is never
assigned by extraction on any document. -/
theorem author_no_marker_unverified (html : Str) :
    (containsSub html verifiedMarker = false →
      (parseAuthor html).1.Verified = false ∧ (parseAuthor html).1.VerifiedType = []) ∧
    (parseAuthor html).1.VerifiedType ≠ VerifiedNone := by
  have hV : (parseAuthor html).1.Verified = containsSub html verifiedMarker := rfl
  have hT : (parseAuthor html).1.VerifiedType =
      if containsSub html verifiedMarker then detectVerifiedType html else [] := rfl
  constructor
  · intro h
    rw [hV, hT, h]
    exact ⟨rfl, by simp⟩
  · rw [hT]
    by_cases h : containsSub html verifiedMarker
    · rw [if_pos h]
      unfold detectVerifiedType
      split
      · decide
      · split
        · decide
        · decide
    · rw [if_neg h]
      decide

theorem author_no_marker_unverified_witness :
    containsSub (lit "<div>plain document</div>") verifiedMarker = false ∧
    (parseAuthor (lit "<div>plain document</div>")).1.Verified = false ∧
    (parseAuthor (lit "<div>plain document</div>")).1.VerifiedType = [] :=
  ⟨by decide,
   ((author_no_marker_unverified (lit "<div>plain document</div>")).1 (by decide)).1,
   ((author_no_marker_unverified (lit "<div>plain document</div>")).1 (by decide)).2⟩

/-- C4 counterexample: a document whose verification marker region carries an
"organization" tier hint.  The claim says the tier resolves to
verified-organization (gold); the code checks only for the literal substrings
`gold`/`Gold` (and `gray`/`Gray`) and therefore yields the default blue
tier. -/
theorem verified_org_hint_counterexample :
    (parseAuthor (lit "<svg data-testid=\"icon-verified\" aria-label=\"organization\"></svg>")).1.Verified
      = true ∧
    (parseAuthor (lit "<svg data-testid=\"icon-verified\" aria-label=\"organization\"></svg>")).1.VerifiedType
      = VerifiedBlue ∧
    VerifiedBlue ≠ VerifiedGold := by
  refine ⟨by decide, by decide, by decide⟩

/-- C4 amended: with the verification marker present the author is verified,
and the tier is the default `blue` (verified-standard) unless the literal
substring `gold` or `Gold` occurs anywhere in the document (then `gold`), or
failing that `gray` or `Gray` occurs (then `gray`).  The hint match is an
exact substring check over the whole document — not case-insensitive, not
limited to the marker region, and with no `organization`/`government`
synonyms. -/
theorem detect_verified_amended (html : Str) (hm : containsSub html verifiedMarker = true) :
    (parseAuthor html).1.Verified = true ∧
    ((containsSub html (lit "gold") || containsSub html (lit "Gold")) = false →
     (containsSub html (lit "gray") || containsSub html (lit "Gray")) = false →
      (parseAuthor html).1.VerifiedType = VerifiedBlue) ∧
    ((containsSub html (lit "gold") || containsSub html (lit "Gold")) = true →
      (parseAuthor html).1.VerifiedType = VerifiedGold) ∧
    ((containsSub html (lit "gold") || containsSub html (lit "Gold")) = false →
     (containsSub html (lit "gray") || containsSub html (lit "Gray")) = true →
      (parseAuthor html).1.VerifiedType = VerifiedGray) := by
  have hV : (parseAuthor html).1.Verified = containsSub html verifiedMarker := rfl
  have hT : (parseAuthor html).1.VerifiedType =
      if containsSub html verifiedMarker then detectVerifiedType html else [] := rfl
  refine ⟨by rw [hV, hm], ?_, ?_, ?_⟩
  · intro h1 h2
    rw [hT, if_pos hm]
    unfold detectVerifiedType
    rw [if_neg (by simp_all), if_neg (by simp_all)]
  · intro h1
    rw [hT, if_pos hm]
    unfold detectVerifiedType
    rw [if_pos (by simp_all)]
  · intro h1 h2
    rw [hT, if_pos hm]
    unfold detectVerifiedType
    rw [if_neg (by simp_all), if_pos (by simp_all)]

theorem detect_verified_amended_witness :
    (parseAuthor (lit "<svg data-testid=\"icon-verified\"></svg>")).1.VerifiedType
      = VerifiedBlue ∧
    (parseAuthor (lit "<svg data-testid=\"icon-verified\" aria-label=\"Gold\"></svg>")).1.VerifiedType
      = VerifiedGold :=
  ⟨(detect_verified_amended (lit "<svg data-testid=\"icon-verified\"></svg>")
      (by decide)).2.1 (by decide) (by decide),
   (detect_verified_amended (lit "<svg data-testid=\"icon-verified\" aria-label=\"Gold\"></svg>")
      (by decide)).2.2.1 (by decide)⟩

/-- C9 counterexample: the scope-key function is not injective on arbitrary
(username, identifier) pairs — two distinct pairs can produce the same key
when the parts themselves contain `/status/` segments. -/
theorem normalized_key_collision :
    normalizedKey (lit "a/status/b") (lit "c") = normalizedKey (lit "a") (lit "b/status/c") ∧
    ¬(lit "a/status/b" = lit "a" ∧ (lit "c" : Str) = lit "b/status/c") := by
  decide

/-- C9 amended: the key function is deterministic (it is a pure function),
injective on pairs whose usernames are free of `/`, and — unconditionally —
identical identifiers under different usernames never collide. -/
theorem normalized_key_injective_amended :
    (∀ u1 id1 u2 id2 : Str, '/' ∉ u1 → '/' ∉ u2 →
      normalizedKey u1 id1 = normalizedKey u2 id2 → u1 = u2 ∧ id1 = id2) ∧
    (∀ u1 u2 id : Str, u1 ≠ u2 → normalizedKey u1 id ≠ normalizedKey u2 id) := by
  have key : ∀ u1 u2 r1 r2 : Str, '/' ∉ u1 → '/' ∉ u2 →
      u1 ++ '/' :: r1 = u2 ++ '/' :: r2 → u1 = u2 ∧ r1 = r2 := by
    intro u1
    induction u1 with
    | nil =>
      intro u2 r1 r2 _ h2 heq
      cases u2 with
      | nil =>
        simp at heq
        exact ⟨rfl, heq⟩
      | cons c u2' =>
        simp at heq
        obtain ⟨hc, _⟩ := heq
        exact absurd (hc ▸ List.mem_cons_self c u2') h2
    | cons c u1' ih =>
      intro u2 r1 r2 h1 h2 heq
      cases u2 with
      | nil =>
        simp at heq
        obtain ⟨hc, _⟩ := heq
        exact absurd (hc ▸ List.mem_cons_self c u1') h1
      | cons d u2' =>
        simp only [List.cons_append, List.cons.injEq] at heq
        obtain ⟨hcd, htl⟩ := heq
        have h1' : '/' ∉ u1' := fun hm => h1 (List.mem_cons_of_mem c hm)
        have h2' : '/' ∉ u2' := fun hm => h2 (List.mem_cons_of_mem d hm)
        obtain ⟨hu, hr⟩ := ih u2' r1 r2 h1' h2' htl
        exact ⟨by rw [hcd, hu], hr⟩
  constructor
  · intro u1 id1 u2 id2 h1 h2 heq
    unfold normalizedKey at heq
    injection heq with _ heq'
    simp only [List.append_eq] at heq'
    rw [List.append_assoc, List.append_assoc,
      show (lit "/status/" : Str) = '/' :: lit "status/" from rfl,
      List.cons_append, List.cons_append] at heq'
    obtain ⟨hu, hr⟩ := key u1 u2 _ _ h1 h2 heq'
    exact ⟨hu, List.append_cancel_left hr⟩
  · intro u1 u2 id hne heq
    unfold normalizedKey at heq
    injection heq with _ heq'
    simp only [List.append_eq] at heq'
    exact hne (List.append_cancel_right (List.append_cancel_right heq'))

theorem normalized_key_injective_amended_witness :
    ((lit "alice" : Str) = lit "alice" ∧ (lit "1" : Str) = lit "1") ∧
    normalizedKey (lit "alice") (lit "7") ≠ normalizedKey (lit "bob") (lit "7") :=
  ⟨normalized_key_injective_amended.1 (lit "alice") (lit "1") (lit "alice") (lit "1")
      (by decide) (by decide) rfl,
   normalized_key_injective_amended.2 (lit "alice") (lit "bob") (lit "7") (by decide)⟩

/-- C5 counterexample: a document that contains the quote-container marker
but no tweet-text block after it yields no `QuotedContent` at all, refuting
"exactly one `QuotedContent` is produced whenever the marker is present". -/
theorem quoted_marker_without_text_counterexample :
    containsSub (lit "<div data-testid=\"quoteTweet\"></div>") quoteMarker = true ∧
    extractQuotedTweet (lit "<div data-testid=\"quoteTweet\"></div>") = none := by
  decide

/-- A `takeWhile` over an append stops exactly at the boundary when every
element of the first part satisfies the predicate and the second part's head
does not. -/
theorem takeWhileAppendEq {α : Type} (p : α → Bool) (t post : List α)
    (h1 : ∀ c ∈ t, p c = true) (h2 : ∀ c, post.head? = some c → p c = false) :
    (t ++ post).takeWhile p = t := by
  induction t with
  | nil =>
    simp only [List.nil_append]
    cases post with
    | nil => rfl
    | cons c₀ ps =>
      rw [List.takeWhile_cons_of_neg]
      simp [h2 c₀ rfl]
  | cons c t' ih =>
    rw [List.cons_append, List.takeWhile_cons_of_pos (h1 c (List.mem_cons_self c t'))]
    rw [ih (fun d hd => h1 d (List.mem_cons_of_mem c hd))]

/-- C5 amended: when the quote-container marker is followed (first occurrence,
as the regex finds it) by a tweet-text marker whose tag close is followed by a
nonempty immediate text run `t`, extraction produces exactly one
`QuotedContent`, carrying exactly `cleanText t` — and everything after that
run, `post`, is ignored, so quote containers nested inside the quoted content
are never parsed.  Otherwise (see the counterexample) no `QuotedContent` is
produced at all. -/
theorem extract_quoted_amended (pre mid attrs t post : Str)
    (hpre : noOccBefore quoteMarker pre)
    (hmid : noOccBefore tweetTextMarker mid)
    (hattrs : '>' ∉ attrs)
    (ht1 : t ≠ [])
    (ht2 : ∀ c ∈ t, c ≠ '<')
    (hpost : ∀ c, post.head? = some c → c = '<') :
    extractQuotedTweet
        (pre ++ quoteMarker ++ (mid ++ tweetTextMarker ++ (attrs ++ '>' :: (t ++ post))))
      = some { Text := cleanText t } := by
  have hq : splitAtLit? quoteMarker
      (pre ++ quoteMarker ++ (mid ++ tweetTextMarker ++ (attrs ++ '>' :: (t ++ post)))) =
      some (pre, mid ++ tweetTextMarker ++ (attrs ++ '>' :: (t ++ post))) :=
    splitAtLit?_noOccBefore pre _ hpre
  have hc : containsSub
      (pre ++ quoteMarker ++ (mid ++ tweetTextMarker ++ (attrs ++ '>' :: (t ++ post))))
      quoteMarker = true := by
    unfold containsSub
    rw [hq]
    rfl
  have htt : splitAtLit? tweetTextMarker
      (mid ++ tweetTextMarker ++ (attrs ++ '>' :: (t ++ post))) =
      some (mid, attrs ++ '>' :: (t ++ post)) :=
    splitAtLit?_noOccBefore mid _ hmid
  have hgt : splitAtLit? ['>'] (attrs ++ '>' :: (t ++ post)) = some (attrs, t ++ post) := by
    have hassoc : attrs ++ '>' :: (t ++ post) = attrs ++ ['>'] ++ (t ++ post) := by
      rw [List.append_assoc]
      rfl
    rw [hassoc]
    exact splitAtLit?_noOccBefore attrs _ (noOccBefore_of_head_notMem hattrs)
  have hcap : (t ++ post).takeWhile (fun c => !(c = '<')) = t := by
    refine takeWhileAppendEq _ t post (fun c hc => ?_) (fun c hc => ?_)
    · simp [ht2 c hc]
    · simp [hpost c hc]
  have htne : t.isEmpty = false := by
    cases t with
    | nil => exact absurd rfl ht1
    | cons x xs => rfl
  unfold extractQuotedTweet
  rw [if_pos hc]
  simp only [hq, htt, hgt, hcap, htne]
  simp

/-- C5 amended witness: a concrete quoted block whose trailing content even
contains another quote container and tweet-text block — ignored, exactly one
`QuotedContent` results. -/
theorem extract_quoted_amended_witness :
    extractQuotedTweet
        (lit "<html><div>" ++ quoteMarker ++
          (lit "<div dir=\"auto\">" ++ tweetTextMarker ++
            (lit " lang=\"en\"" ++ '>' ::
              (lit "quoted text" ++
                lit "</div><span data-testid=\"quoteTweet\">x</span>"))))
      = some { Text := cleanText (lit "quoted text") } :=
  extract_quoted_amended (lit "<html><div>") (lit "<div dir=\"auto\">") (lit " lang=\"en\"")
    (lit "quoted text") (lit "</div><span data-testid=\"quoteTweet\">x</span>")
    (by decide) (by decide) (by decide) (by decide) (by decide) (by decide)

/-- A character other than `<` can never start an anchor match. -/
theorem matchAnchor?_none_of_head {c : Char} (cs : Str) (h : c ≠ '<') :
    matchAnchor? (c :: cs) = none := by
  cases cs with
  | nil => rfl
  | cons a rest =>
    show (if c = '<' then if a = 'a' then anchorAt? rest else none else none) = none
    rw [if_neg h]

/-- Definitional unfolding of the scanner at skip 0 on a cons. -/
theorem preserveLinksAux_zero_cons (c : Char) (cs : Str) :
    preserveLinksAux 0 (c :: cs) =
      match matchAnchor? (c :: cs) with
      | some (href, label, rest) =>
        anchorRepl href label ++ preserveLinksAux (cs.length - rest.length) cs
      | none => c :: preserveLinksAux 0 cs := rfl

/-- The scanner copies anchor-free text verbatim. -/
theorem preserveLinksAux_append_of_no_lt {pre : Str} (X : Str) (h : '<' ∉ pre) :
    preserveLinksAux 0 (pre ++ X) = pre ++ preserveLinksAux 0 X := by
  induction pre with
  | nil => rfl
  | cons c pre' ih =>
    have hc : c ≠ '<' := fun he => h (he ▸ List.mem_cons_self c pre')
    have h' : '<' ∉ pre' := fun hm => h (List.mem_cons_of_mem c hm)
    rw [List.cons_append, preserveLinksAux_zero_cons,
      matchAnchor?_none_of_head _ hc]
    simp only [List.cons_append]
    rw [ih h']

/-- The skip state consumes exactly the matched characters. -/
theorem preserveLinksAux_skip (xs ys : Str) :
    preserveLinksAux xs.length (xs ++ ys) = preserveLinksAux 0 ys := by
  induction xs with
  | nil => rfl
  | cons c xs' ih =>
    rw [List.cons_append]
    exact ih

/-- C8: for every anchor element in main-text extraction, `preserveLinks`
rewrites it by the branch rule of the source: a same-site
hashtag/mention/search link keeps its visible label (tags stripped, padded by
single spaces) and drops the link wrapper; any other anchor is replaced by
the ` [[LINK:href]] ` marker carrying the full target URL, with the visible
label suppressed.  Text before the anchor is copied verbatim and scanning
continues after it. -/
theorem preserve_links_branches (pre attrs href attrs2 label post : Str)
    (hpre : '<' ∉ pre) (hattrs1 : 'h' ∉ attrs) (hattrs2 : '>' ∉ attrs)
    (hhref1 : href ≠ []) (hhref2 : '"' ∉ href) (hattrs2' : '>' ∉ attrs2)
    (hlabel : noOccBefore (lit "</a>") label) :
    preserveLinks (pre ++ '<' :: 'a' :: ankRest attrs href attrs2 label post) =
      pre ++ (anchorRepl href label ++ preserveLinks post) ∧
    (internalLink href = true → anchorRepl href label = ' ' :: (stripHTML label ++ [' '])) ∧
    (internalLink href = false →
      anchorRepl href label = lit " [[LINK:" ++ href ++ lit "]] ") := by
  refine ⟨?_, ?_, ?_⟩
  · have hno1 : noOccBefore (lit "href=\"") (' ' :: attrs) := by
      have he : (lit "href=\"" : Str) = 'h' :: lit "ref=\"" := rfl
      rw [he]
      refine noOccBefore_of_head_notMem ?_
      intro hmem
      rcases List.mem_cons.mp hmem with h | h
      · exact absurd h (by decide)
      · exact hattrs1 h
    have h1 : splitAtLit? (lit "href=\"") (ankRest attrs href attrs2 label post) =
        some (' ' :: attrs,
          href ++ ['"'] ++ (attrs2 ++ ['>'] ++ (label ++ lit "</a>" ++ post))) :=
      splitAtLit?_noOccBefore (' ' :: attrs) _ hno1
    have hcont : (' ' :: attrs).contains '>' = false := by
      simp only [List.contains, List.elem_eq_mem, List.mem_cons, decide_eq_false_iff_not]
      rintro (h | h)
      · exact absurd h (by decide)
      · exact hattrs2 h
    have h2 : splitAtLit? ['"']
        (href ++ ['"'] ++ (attrs2 ++ ['>'] ++ (label ++ lit "</a>" ++ post))) =
        some (href, attrs2 ++ ['>'] ++ (label ++ lit "</a>" ++ post)) :=
      splitAtLit?_noOccBefore href _ (noOccBefore_of_head_notMem hhref2)
    have hhe : href.isEmpty = false := by
      cases href with
      | nil => exact absurd rfl hhref1
      | cons x xs => rfl
    have h3 : splitAtLit? ['>'] (attrs2 ++ ['>'] ++ (label ++ lit "</a>" ++ post)) =
        some (attrs2, label ++ lit "</a>" ++ post) :=
      splitAtLit?_noOccBefore attrs2 _ (noOccBefore_of_head_notMem hattrs2')
    have h4 : splitAtLit? (lit "</a>") (label ++ lit "</a>" ++ post) =
        some (label, post) :=
      splitAtLit?_noOccBefore label _ hlabel
    have hA : anchorAt? (ankRest attrs href attrs2 label post) = some (href, label, post) := by
      unfold anchorAt?
      simp only [h1, hcont, Bool.false_eq_true, if_false, h2, hhe, h3, h4]
    have hM : matchAnchor? ('<' :: 'a' :: ankRest attrs href attrs2 label post) =
        some (href, label, post) := by
      show (if '<' = '<' then
          if 'a' = 'a' then anchorAt? (ankRest attrs href attrs2 label post) else none
        else none) = some (href, label, post)
      rw [if_pos rfl, if_pos rfl]
      exact hA
    have e : ('a' :: ankRest attrs href attrs2 label post : Str) =
        ('a' :: ankBody attrs href attrs2 label) ++ post := by
      simp [ankRest, ankBody, List.cons_append, List.append_assoc]
    show preserveLinksAux 0 _ = _
    rw [preserveLinksAux_append_of_no_lt _ hpre, preserveLinksAux_zero_cons]
    simp only [hM]
    have hskip : (('a' :: ankBody attrs href attrs2 label) ++ post).length - post.length =
        ('a' :: ankBody attrs href attrs2 label).length := by
      simp
      omega
    rw [e, hskip, preserveLinksAux_skip]
    rfl
  · intro h
    unfold anchorRepl
    rw [if_pos h]
  · intro h
    unfold anchorRepl
    rw [if_neg (by rw [h]; exact Bool.false_ne_true)]

/-- C8 witness: one internal (mention-style) anchor keeping its stripped
label, and one external anchor expanded to its full target URL. -/
theorem preserve_links_branches_witness :
    preserveLinks (lit "see " ++ '<' :: 'a' ::
        ankRest (lit "class=\"x\" ") (lit "/jack") (lit " rel=\"nofollow\"")
          (lit "<span>@jack</span>") (lit " end")) =
      lit "see " ++ (' ' :: (stripHTML (lit "<span>@jack</span>") ++ [' ']) ++
        preserveLinks (lit " end")) ∧
    preserveLinks (lit "go " ++ '<' :: 'a' ::
        ankRest (lit "class=\"x\" ") (lit "https://t.co/abc") (lit " rel=\"me\"")
          (lit "t.co/abc") (lit " end")) =
      lit "go " ++ (lit " [[LINK:" ++ lit "https://t.co/abc" ++ lit "]] " ++
        preserveLinks (lit " end")) := by
  have w1 := preserve_links_branches (lit "see ") (lit "class=\"x\" ") (lit "/jack")
    (lit " rel=\"nofollow\"") (lit "<span>@jack</span>") (lit " end")
    (by decide) (by decide) (by decide) (by decide) (by decide) (by decide) (by decide)
  have w2 := preserve_links_branches (lit "go ") (lit "class=\"x\" ") (lit "https://t.co/abc")
    (lit " rel=\"me\"") (lit "t.co/abc") (lit " end")
    (by decide) (by decide) (by decide) (by decide) (by decide) (by decide) (by decide)
  constructor
  · rw [w1.1, w1.2.1 (by decide)]
  · rw [w2.1, w2.2.2 (by decide)]

/-! ## Lemmas on the newline-collapse scanner and the normalization
pipeline -/

theorem cnlAux_cons_nl (n : Nat) (cs : Str) : cnlAux n ('\n' :: cs) = cnlAux (n + 1) cs := by
  show (if '\n' = '\n' then cnlAux (n + 1) cs
    else List.replicate (min n 2) '\n' ++ '\n' :: cnlAux 0 cs) = _
  rw [if_pos rfl]

theorem cnlAux_cons_ne (n : Nat) {c : Char} (cs : Str) (h : c ≠ '\n') :
    cnlAux n (c :: cs) = List.replicate (min n 2) '\n' ++ c :: cnlAux 0 cs := by
  show (if c = '\n' then cnlAux (n + 1) cs
    else List.replicate (min n 2) '\n' ++ c :: cnlAux 0 cs) = _
  rw [if_neg h]

/-- The scanner distributes over an append whose left part does not end in a
newline. -/
theorem cnlAux_append {s : Str} (r : Str) (hne : s ≠ []) (hlast : s.getLast? ≠ some '\n')
    (n : Nat) : cnlAux n (s ++ r) = cnlAux n s ++ cnlAux 0 r := by
  induction s generalizing n with
  | nil => exact absurd rfl hne
  | cons c s' ih =>
    cases s' with
    | nil =>
      have hc : c ≠ '\n' := by
        intro he
        exact hlast (by rw [he]; rfl)
      rw [List.cons_append, List.nil_append, cnlAux_cons_ne n r hc, cnlAux_cons_ne n [] hc]
      simp [cnlAux]
    | cons d s'' =>
      have hlast' : (d :: s'').getLast? ≠ some '\n' := by
        rw [List.getLast?_cons_cons] at hlast
        exact hlast
      by_cases hc : c = '\n'
      · subst hc
        rw [List.cons_append, cnlAux_cons_nl, cnlAux_cons_nl]
        exact ih (by simp) hlast' (n + 1)
      · rw [List.cons_append, cnlAux_cons_ne n _ hc, cnlAux_cons_ne n _ hc]
        rw [ih (by simp) hlast' 0]
        simp [List.append_assoc]

/-- The scanner turns a newline run into an increment of its counter. -/
theorem cnlAux_replicate (k : Nat) (t : Str) (n : Nat) :
    cnlAux n (List.replicate k '\n' ++ t) = cnlAux (n + k) t := by
  induction k generalizing n with
  | zero => simp
  | succ k ih =>
    rw [List.replicate_succ, List.cons_append, cnlAux_cons_nl, ih (n + 1)]
    congr 1
    omega

/-- A newline-free string passes through the collapse unchanged. -/
theorem cnlAux_nl_free (s : Str) (h : ∀ c ∈ s, c ≠ '\n') : cnlAux 0 s = s := by
  induction s with
  | nil => rfl
  | cons c cs ih =>
    rw [cnlAux_cons_ne 0 cs (h c (List.mem_cons_self c cs))]
    simp [ih (fun d hd => h d (List.mem_cons_of_mem c hd))]

/-- Each maximal run of `k ≥ 3` newlines between a non-newline-ending prefix
and a non-newline-starting suffix collapses to exactly two newlines, the
flanks being collapsed independently. -/
theorem collapseNL_run (k : Nat) (s t : Str) (hk : 3 ≤ k)
    (hs : s.getLast? ≠ some '\n') (ht : t.head? ≠ some '\n') :
    collapseNL (s ++ List.replicate k '\n' ++ t) =
      collapseNL s ++ ['\n', '\n'] ++ collapseNL t := by
  have hmin : min k 2 = 2 := by omega
  have core : cnlAux k t = ['\n', '\n'] ++ cnlAux 0 t := by
    cases t with
    | nil =>
      show List.replicate (min k 2) '\n' = _
      rw [hmin]
      rfl
    | cons c t' =>
      have hc : c ≠ '\n' := by
        intro he
        exact ht (by rw [he]; rfl)
      rw [cnlAux_cons_ne k t' hc, cnlAux_cons_ne 0 t' hc, hmin]
      rfl
  cases s with
  | nil =>
    simp only [List.nil_append]
    unfold collapseNL
    rw [cnlAux_replicate k t 0]
    simpa using core
  | cons c s' =>
    unfold collapseNL
    rw [List.append_assoc, cnlAux_append (List.replicate k '\n' ++ t) (by simp) hs 0,
      cnlAux_replicate k t 0]
    simp only [Nat.zero_add] at core ⊢
    rw [core]
    simp [List.append_assoc]

theorem isUSpace_of_isHW {c : Char} (h : isHW c = true) : isUSpace c = true := by
  unfold isHW at h
  simp only [Bool.or_eq_true, decide_eq_true_eq] at h
  rcases h with ((h | h) | h) | h <;> subst h <;> decide

/-- A string free of the squashed class passes through `squashAux` from the
idle state unchanged. -/
theorem squashAux_id {α : Type} (p : α → Bool) (tok : α) (cs : List α)
    (h : ∀ c ∈ cs, p c = false) : squashAux p tok false cs = cs := by
  induction cs with
  | nil => rfl
  | cons c cs ih =>
    unfold squashAux
    rw [h c (List.mem_cons_self c cs)]
    simp [ih (fun d hd => h d (List.mem_cons_of_mem c hd))]

theorem dropWhile_id {α : Type} (p : α → Bool) (cs : List α)
    (h : ∀ c, cs.head? = some c → p c = false) : cs.dropWhile p = cs := by
  cases cs with
  | nil => rfl
  | cons c cs' =>
    rw [List.dropWhile_cons_of_neg]
    simp [h c rfl]

/-- `TrimSpace` fixes a string whose two ends are not whitespace. -/
theorem trimSpace_id_of_ends {cs : Str}
    (h1 : ∀ c, cs.head? = some c → isUSpace c = false)
    (h2 : ∀ c, cs.getLast? = some c → isUSpace c = false) : trimSpace cs = cs := by
  unfold trimSpace trimRightWS trimLeftWS
  rw [dropWhile_id _ cs.reverse (fun c hc => h2 c (by rwa [List.head?_reverse] at hc)),
    List.reverse_reverse,
    dropWhile_id _ cs h1]

/-- A head given by `head?` is a member. -/
theorem memOfHead? {α : Type} {l : List α} {a : α} (h : l.head? = some a) : a ∈ l := by
  cases l with
  | nil => cases h
  | cons b bs =>
    have hab : a = b := (Option.some.inj h).symm
    subst hab
    exact List.mem_cons_self a bs

/-- `TrimSpace` fixes a whitespace-free string. -/
theorem trimSpace_id (cs : Str) (h : ∀ c ∈ cs, isUSpace c = false) : trimSpace cs = cs :=
  trimSpace_id_of_ends
    (fun c hc => h c (memOfHead? hc))
    (fun c hc => h c (List.mem_of_getLast?_eq_some hc))

/-- `strings.Split` emits a separator-free piece at a separator boundary. -/
theorem splitOnChar_append (sep : Char) (s r : Str) (h : ∀ c ∈ s, c ≠ sep) :
    splitOnChar sep (s ++ sep :: r) = s :: splitOnChar sep r := by
  induction s with
  | nil =>
    rw [List.nil_append, splitOnChar, if_pos rfl]
  | cons c s' ih =>
    rw [List.cons_append, splitOnChar,
      if_neg (h c (List.mem_cons_self c s')),
      ih (fun d hd => h d (List.mem_cons_of_mem c hd))]
    rfl

/-- `strings.Split` leaves a separator-free string whole. -/
theorem splitOnChar_free (sep : Char) (t : Str) (h : ∀ c ∈ t, c ≠ sep) :
    splitOnChar sep t = [t] := by
  induction t with
  | nil => rfl
  | cons c t' ih =>
    rw [splitOnChar, if_neg (h c (List.mem_cons_self c t')),
      ih (fun d hd => h d (List.mem_cons_of_mem c hd))]
    rfl

/-- C7: the newline-collapsing rewrite maps each maximal run of three or more
consecutive newlines to exactly two (first conjunct, for every run length
`k ≥ 3` and arbitrary collapsed flanks); and end-to-end, `k ≥ 3` consecutive
newlines between nonempty whitespace-free text — in particular five —
normalize to exactly two. -/
theorem newline_collapse :
    (∀ (k : Nat) (s t : Str), 3 ≤ k → s.getLast? ≠ some '\n' → t.head? ≠ some '\n' →
      collapseNL (s ++ List.replicate k '\n' ++ t) =
        collapseNL s ++ ['\n', '\n'] ++ collapseNL t) ∧
    (∀ (k : Nat) (s t : Str), 3 ≤ k → s ≠ [] → t ≠ [] →
      (∀ c ∈ s, isUSpace c = false) → (∀ c ∈ t, isUSpace c = false) →
      cleanTextPreserveNewlines (s ++ List.replicate k '\n' ++ t) =
        s ++ ['\n', '\n'] ++ t) := by
  constructor
  · exact fun k s t hk hs ht => collapseNL_run k s t hk hs ht
  · intro k s t hk hs ht hsw htw
    have hsnl : ∀ c ∈ s, c ≠ '\n' := by
      intro c hc he
      subst he
      have := hsw _ hc
      simp [isUSpace] at this
    have htnl : ∀ c ∈ t, c ≠ '\n' := by
      intro c hc he
      subst he
      have := htw _ hc
      simp [isUSpace] at this
    have hshw : ∀ c ∈ s, isHW c = false := by
      intro c hc
      cases hval : isHW c
      · rfl
      · exact absurd (isUSpace_of_isHW hval) (by simp [hsw c hc])
    have hthw : ∀ c ∈ t, isHW c = false := by
      intro c hc
      cases hval : isHW c
      · rfl
      · exact absurd (isUSpace_of_isHW hval) (by simp [htw c hc])
    have hHW : collapseHW (s ++ List.replicate k '\n' ++ t) =
        s ++ List.replicate k '\n' ++ t := by
      unfold collapseHW
      refine squashAux_id _ _ _ ?_
      intro c hc
      rcases List.mem_append.mp hc with hc | hc
      · rcases List.mem_append.mp hc with hc | hc
        · exact hshw c hc
        · rw [List.eq_of_mem_replicate hc]
          rfl
      · exact hthw c hc
    have hNL : collapseNL (s ++ List.replicate k '\n' ++ t) = s ++ ['\n', '\n'] ++ t := by
      rw [collapseNL_run k s t hk
        (fun he => (hsnl _ (List.mem_of_getLast?_eq_some he)) rfl)
        (fun he => (htnl _ (memOfHead? he)) rfl)]
      unfold collapseNL
      rw [cnlAux_nl_free s hsnl, cnlAux_nl_free t htnl]
    have hsplit : splitNL (s ++ '\n' :: ('\n' :: t)) = [s, [], t] := by
      unfold splitNL
      rw [splitOnChar_append '\n' s _ hsnl]
      have e2 : ('\n' :: t : Str) = [] ++ '\n' :: t := rfl
      rw [e2, splitOnChar_append '\n' [] t (fun c hc => absurd hc (List.not_mem_nil c)),
        splitOnChar_free '\n' t htnl]
    have hmap : ([s, [], t].map trimSpace) = [s, [], t] := by
      simp only [List.map]
      rw [trimSpace_id s hsw, trimSpace_id t htw]
      rfl
    have hjoin : joinNL [s, [], t] = s ++ '\n' :: ('\n' :: t) := rfl
    have houter : trimSpace (s ++ '\n' :: ('\n' :: t)) = s ++ '\n' :: ('\n' :: t) := by
      refine trimSpace_id_of_ends ?_ ?_
      · intro c hc
        cases s with
        | nil => exact absurd rfl hs
        | cons a s₀ =>
          rw [List.cons_append] at hc
          have hca : c = a := (Option.some.inj hc).symm
          subst hca
          exact hsw c (List.mem_cons_self c s₀)
      · intro c hc
        cases t with
        | nil => exact absurd rfl ht
        | cons d t₀ =>
          obtain ⟨y, hy⟩ : ∃ y, (d :: t₀).getLast? = some y := by
            cases hgl : (d :: t₀).getLast? with
            | none => exact absurd (List.getLast?_eq_none_iff.mp hgl) (by simp)
            | some y => exact ⟨y, rfl⟩
          rw [List.getLast?_append, List.getLast?_cons_cons, List.getLast?_cons_cons,
            hy, Option.or_some] at hc
          have hcy : c = y := (Option.some.inj hc).symm
          subst hcy
          exact htw c (List.mem_of_getLast?_eq_some hy)
    have hassoc : s ++ ['\n', '\n'] ++ t = s ++ '\n' :: ('\n' :: t) := by
      simp [List.append_assoc]
    show trimSpace (joinNL ((splitNL (collapseNL (collapseHW
        (s ++ List.replicate k '\n' ++ t)))).map trimSpace)) = s ++ ['\n', '\n'] ++ t
    rw [hHW, hNL, hassoc, hsplit, hmap, hjoin, houter]

/-- C7 witness: five newlines between concrete words collapse to exactly two,
for both conjuncts of the theorem. -/
theorem newline_collapse_witness :
    collapseNL (lit "a" ++ List.replicate 5 '\n' ++ lit "b") =
      collapseNL (lit "a") ++ ['\n', '\n'] ++ collapseNL (lit "b") ∧
    cleanTextPreserveNewlines (lit "hello" ++ List.replicate 5 '\n' ++ lit "world") =
      lit "hello" ++ ['\n', '\n'] ++ lit "world" :=
  ⟨newline_collapse.1 5 (lit "a") (lit "b") (by decide) (by decide) (by decide),
   newline_collapse.2 5 (lit "hello") (lit "world") (by decide) (by decide) (by decide)
     (by decide) (by decide)⟩

theorem headDropWhileFalse {α : Type} (p : α → Bool) (l : List α) {x : α}
    (h : (l.dropWhile p).head? = some x) : p x = false := by
  have hm := List.head?_dropWhile_not p l
  rw [h] at hm
  exact hm

/-- Definitional unfolding of `squashAux` on a cons. -/
theorem squashAux_cons {α : Type} (p : α → Bool) (tok : α) (b : Bool) (c : α) (cs : List α) :
    squashAux p tok b (c :: cs) =
      if p c then
        (if b then squashAux p tok true cs else tok :: squashAux p tok true cs)
      else c :: squashAux p tok false cs := rfl

/-- `squashAux` distributes over a separator outside the squashed class. -/
theorem squashAux_sep {α : Type} {p : α → Bool} {tok sep : α} (hsep : p sep = false)
    (xs ys : List α) (b : Bool) :
    squashAux p tok b (xs ++ sep :: ys) =
      squashAux p tok b xs ++ sep :: squashAux p tok false ys := by
  induction xs generalizing b with
  | nil =>
    rw [List.nil_append, squashAux_cons, if_neg (by simp [hsep])]
    rfl
  | cons c xs ih =>
    rw [List.cons_append, squashAux_cons, squashAux_cons]
    by_cases hc : p c = true
    · rw [if_pos hc, if_pos hc]
      cases b with
      | true =>
        rw [if_pos rfl, if_pos rfl, ih true]
      | false =>
        rw [if_neg (by simp), if_neg (by simp), ih true]
        rfl
    · rw [if_neg hc, if_neg hc, ih false]
      rfl

/-- `collapseHW` acts on each line independently. -/
theorem collapseHW_joinNL (ls : List Str) :
    collapseHW (joinNL ls) = joinNL (ls.map collapseHW) := by
  induction ls with
  | nil => rfl
  | cons l ls' ih =>
    cases ls' with
    | nil => rfl
    | cons l2 ls'' =>
      show collapseHW (l ++ '\n' :: joinNL (l2 :: ls'')) = _
      unfold collapseHW
      rw [squashAux_sep (by decide) l (joinNL (l2 :: ls'')) false]
      show _ = collapseHW l ++ '\n' :: joinNL ((l2 :: ls'').map collapseHW)
      rw [← ih]
      rfl

/-- Splitting inverts joining for newline-free lines. -/
theorem splitNL_joinNL (ls : List Str) (hne : ls ≠ [])
    (hfree : ∀ l ∈ ls, ∀ c ∈ l, c ≠ '\n') : splitNL (joinNL ls) = ls := by
  induction ls with
  | nil => exact absurd rfl hne
  | cons l ls' ih =>
    cases ls' with
    | nil =>
      show splitNL l = [l]
      exact splitOnChar_free '\n' l (hfree l (List.mem_cons_self l []))
    | cons l2 ls'' =>
      show splitNL (l ++ '\n' :: joinNL (l2 :: ls'')) = l :: l2 :: ls''
      unfold splitNL
      rw [splitOnChar_append '\n' l _ (hfree l (List.mem_cons_self l (l2 :: ls'')))]
      have := ih (by simp) (fun m hm c hc => hfree m (List.mem_cons_of_mem l hm) c hc)
      unfold splitNL at this
      rw [this]

/-- The head of a joined line list is the head of its first line, when that
line is nonempty. -/
theorem joinNL_head? (m : Str) (rest : List Str) (hm : m ≠ []) :
    (joinNL (m :: rest)).head? = m.head? := by
  cases rest with
  | nil => rfl
  | cons r rest' =>
    show (m ++ '\n' :: joinNL (r :: rest')).head? = m.head?
    cases m with
    | nil => exact absurd rfl hm
    | cons c m₀ => rfl

/-- The membership closure of `squashAux`: outputs are the token or inputs. -/
theorem squashAux_mem {α : Type} {p : α → Bool} {tok : α} {cs : List α} {b : Bool} {x : α}
    (h : x ∈ squashAux p tok b cs) : x = tok ∨ x ∈ cs := by
  induction cs generalizing b with
  | nil => cases h
  | cons c cs ih =>
    rw [squashAux_cons] at h
    by_cases hc : p c = true
    · rw [if_pos hc] at h
      cases b with
      | true =>
        rw [if_pos rfl] at h
        rcases ih h with h' | h'
        · exact Or.inl h'
        · exact Or.inr (List.mem_cons_of_mem c h')
      | false =>
        rw [if_neg (by simp)] at h
        rcases List.mem_cons.mp h with h' | h'
        · exact Or.inl h'
        · rcases ih h' with h'' | h''
          · exact Or.inl h''
          · exact Or.inr (List.mem_cons_of_mem c h'')
    · rw [if_neg hc] at h
      rcases List.mem_cons.mp h with h' | h'
      · exact Or.inr (h' ▸ List.mem_cons_self c cs)
      · rcases ih h' with h'' | h''
        · exact Or.inl h''
        · exact Or.inr (List.mem_cons_of_mem c h'')

/-- The last element survives `squashAux` when it is outside the class. -/
theorem squashAux_getLast? {α : Type} {p : α → Bool} {tok : α} {z : α} (cs : List α)
    (b : Bool) (hz : cs.getLast? = some z) (hpz : p z = false) :
    (squashAux p tok b cs).getLast? = some z := by
  induction cs generalizing b with
  | nil => cases hz
  | cons c cs ih =>
    cases cs with
    | nil =>
      have hcz : c = z := Option.some.inj hz
      subst hcz
      rw [squashAux_cons, if_neg (by simp [hpz])]
      rfl
    | cons d cs' =>
      rw [List.getLast?_cons_cons] at hz
      have htail : ∀ b', (squashAux p tok b' (d :: cs')).getLast? = some z := fun b' => ih b' hz
      have hne : ∀ b', squashAux p tok b' (d :: cs') ≠ [] := by
        intro b' hcon
        have hl := htail b'
        rw [hcon] at hl
        cases hl
      have hlcons : ∀ (y : α) (b' : Bool),
          (y :: squashAux p tok b' (d :: cs')).getLast? = some z := by
        intro y b'
        rw [List.getLast?_cons, htail b']
        rfl
      rw [squashAux_cons]
      by_cases hc : p c = true
      · rw [if_pos hc]
        cases b with
        | true =>
          rw [if_pos rfl]
          exact htail true
        | false =>
          rw [if_neg (by simp)]
          exact hlcons tok true
      · rw [if_neg hc]
        exact hlcons c false

/-- The collapse scanner copies a newline-free prefix. -/
theorem cnlAux_front (l r : Str) (h : ∀ c ∈ l, c ≠ '\n') :
    cnlAux 0 (l ++ r) = l ++ cnlAux 0 r := by
  induction l with
  | nil => rfl
  | cons c l' ih =>
    rw [List.cons_append, cnlAux_cons_ne 0 _ (h c (List.mem_cons_self c l'))]
    simp [ih (fun d hd => h d (List.mem_cons_of_mem c hd))]

/-- The collapse scanner flushes its counter before a non-newline head. -/
theorem cnlAux_shift (J : Str) (n : Nat) (hne : J ≠ []) (hhead : J.head? ≠ some '\n') :
    cnlAux n J = List.replicate (min n 2) '\n' ++ cnlAux 0 J := by
  cases J with
  | nil => exact absurd rfl hne
  | cons c J₀ =>
    have hc : c ≠ '\n' := fun he => hhead (by rw [he]; rfl)
    rw [cnlAux_cons_ne n _ hc, cnlAux_cons_ne 0 _ hc]
    simp

/-- Joining with a nonempty tail emits the first line and a newline. -/
theorem joinNL_cons_ne (m : Str) (X : List Str) (hX : X ≠ []) :
    joinNL (m :: X) = m ++ '\n' :: joinNL X := by
  cases X with
  | nil => exact absurd rfl hX
  | cons y ys => rfl

/-- Joining a run of empty lines prepends the same number of newlines. -/
theorem joinNL_replicate_nil (j : Nat) (X : List Str) (hX : X ≠ []) :
    joinNL (List.replicate j [] ++ X) = List.replicate j '\n' ++ joinNL X := by
  induction j with
  | zero => simp
  | succ j ih =>
    rw [List.replicate_succ, List.cons_append]
    have hYne : List.replicate j ([] : Str) ++ X ≠ [] := by
      intro hcon
      rcases List.append_eq_nil.mp hcon with ⟨_, h2⟩
      exact hX h2
    cases hY : List.replicate j ([] : Str) ++ X with
    | nil => exact absurd hY hYne
    | cons y ys =>
      show ([] : Str) ++ '\n' :: joinNL (y :: ys) = _
      rw [← hY, ih]
      simp [List.replicate_succ]

/-- Skipping state of the empty-line squash ignores a leading empty run. -/
theorem squashTrue_replicate_nil (j : Nat) (W : List Str) :
    squashAux (fun l => l.isEmpty) [] true (List.replicate j [] ++ W) =
      squashAux (fun l => l.isEmpty) [] true W := by
  induction j with
  | zero => simp
  | succ j ih =>
    rw [List.replicate_succ, List.cons_append, squashAux_cons, if_pos (by rfl), if_pos rfl]
    exact ih

/-- The newline collapse, at line level: between a nonempty first and last
line, it collapses each run of consecutive empty lines to one empty line. -/
theorem cnl_join (n : Nat) : ∀ ls : List Str, ls.length ≤ n →
    (∀ l ∈ ls, ∀ c ∈ l, c ≠ '\n') →
    (∀ z, ls.head? = some z → z ≠ []) →
    (∀ z, ls.getLast? = some z → z ≠ []) →
    collapseNL (joinNL ls) = joinNL (dedupEmpty ls) := by
  induction n with
  | zero =>
    intro ls hlen _ _ _
    have : ls = [] := List.length_eq_zero.mp (Nat.le_zero.mp hlen)
    subst this
    rfl
  | succ n ih =>
    intro ls hlen hfree hhead hlast
    cases ls with
    | nil => rfl
    | cons m rest =>
      have hm : m ≠ [] := hhead m rfl
      have hmfree : ∀ c ∈ m, c ≠ '\n' := hfree m (List.mem_cons_self m rest)
      have hmE : m.isEmpty = false := by
        cases m with
        | nil => exact absurd rfl hm
        | cons a as => rfl
      have hdecomp : rest = List.replicate (rest.takeWhile (fun l => l.isEmpty)).length [] ++
          rest.dropWhile (fun l => l.isEmpty) := by
        conv_lhs => rw [← List.takeWhile_append_dropWhile (p := fun l => l.isEmpty) (l := rest)]
        congr 1
        refine List.eq_replicate_of_mem ?_
        intro b hb
        exact List.isEmpty_iff.mp (List.mem_takeWhile_imp hb)
      set j := (rest.takeWhile (fun l => l.isEmpty)).length with hj
      cases hrest' : rest.dropWhile (fun l => l.isEmpty) with
      | nil =>
        rw [hrest', List.append_nil] at hdecomp
        cases hjz : j with
        | zero =>
          rw [hjz] at hdecomp
          simp only [List.replicate] at hdecomp
          subst hdecomp
          show collapseNL (joinNL [m]) = joinNL (dedupEmpty [m])
          show collapseNL m = _
          unfold collapseNL
          rw [cnlAux_nl_free m hmfree]
          unfold dedupEmpty
          rw [squashAux_cons, if_neg (by simp [hmE])]
          rfl
        | succ j' =>
          exfalso
          have hlz : (m :: rest).getLast? = some [] := by
            rw [hdecomp, hjz]
            have : (List.replicate (j' + 1) ([] : Str)).getLast? = some [] := by
              rw [List.getLast?_replicate]
              simp
            rw [List.getLast?_cons, this]
            rfl
          exact hlast [] hlz rfl
      | cons m' rest'' =>
        have hm'E : m'.isEmpty = false := by
          refine headDropWhileFalse (fun l => l.isEmpty) rest ?_
          rw [hrest']
          rfl
        have hm' : m' ≠ [] := by
          cases m' with
          | nil => simp at hm'E
          | cons a as => simp
        have hmemsub : ∀ l ∈ m' :: rest'', l ∈ m :: rest := by
          intro l hl
          refine List.mem_cons_of_mem m ?_
          rw [hdecomp, hrest']
          exact List.mem_append_right _ hl
        have hfree' : ∀ l ∈ m' :: rest'', ∀ c ∈ l, c ≠ '\n' :=
          fun l hl => hfree l (hmemsub l hl)
        have hm'free : ∀ c ∈ m', c ≠ '\n' := hfree' m' (List.mem_cons_self m' rest'')
        obtain ⟨w, hw⟩ : ∃ w, (m' :: rest'').getLast? = some w := by
          cases hgl : (m' :: rest'').getLast? with
          | none => exact absurd (List.getLast?_eq_none_iff.mp hgl) (by simp)
          | some w => exact ⟨w, rfl⟩
        have hlast' : ∀ z, (m' :: rest'').getLast? = some z → z ≠ [] := by
          intro z hz
          refine hlast z ?_
          rw [List.getLast?_cons, hdecomp, hrest', List.getLast?_append, hz]
          rfl
        have hlen' : (m' :: rest'').length ≤ n := by
          have h1 : rest.length = j + (m' :: rest'').length := by
            conv_lhs => rw [hdecomp, hrest']
            simp
          have h2 : (m :: rest).length = rest.length + 1 := by simp
          rw [h2] at hlen
          omega
        have hhead' : ∀ z, (m' :: rest'').head? = some z → z ≠ [] := by
          intro z hz
          have hz' : m' = z := Option.some.inj hz
          exact hz' ▸ hm'
        have hIH := ih (m' :: rest'') hlen' hfree' hhead' hlast'
        have hJhead : (joinNL (m' :: rest'')).head? = m'.head? := joinNL_head? m' rest'' hm'
        have hJne : joinNL (m' :: rest'') ≠ [] := by
          intro hcon
          rw [hcon] at hJhead
          cases m' with
          | nil => exact hm' rfl
          | cons a as => cases hJhead
        have hJheadNL : (joinNL (m' :: rest'')).head? ≠ some '\n' := by
          rw [hJhead]
          cases m' with
          | nil => exact absurd rfl hm'
          | cons a as =>
            intro hcon
            exact (hm'free a (List.mem_cons_self a as)) (Option.some.inj hcon)
        have hXne : List.replicate j ([] : Str) ++ m' :: rest'' ≠ [] := by
          intro hcon
          rcases List.append_eq_nil.mp hcon with ⟨_, h2⟩
          cases h2
        have hjoin : joinNL (m :: rest) =
            m ++ (List.replicate (j + 1) '\n' ++ joinNL (m' :: rest'')) := by
          conv_lhs => rw [hdecomp, hrest']
          rw [joinNL_cons_ne m _ hXne, joinNL_replicate_nil j _ (by simp)]
          rw [List.replicate_succ, List.cons_append]
        have hDne : dedupEmpty (m' :: rest'') ≠ [] := by
          unfold dedupEmpty
          rw [squashAux_cons, if_neg (by simp [hm'E])]
          simp
        have hcollapse : collapseNL (joinNL (m :: rest)) =
            m ++ (List.replicate (min (j + 1) 2) '\n' ++
              joinNL (dedupEmpty (m' :: rest''))) := by
          rw [hjoin]
          unfold collapseNL
          rw [cnlAux_front m _ hmfree]
          have hr := cnlAux_replicate (j + 1) (joinNL (m' :: rest'')) 0
          rw [Nat.zero_add] at hr
          rw [hr, cnlAux_shift _ _ hJne hJheadNL]
          unfold collapseNL at hIH
          rw [hIH]
        have hdedup : dedupEmpty (m :: rest) = m ::
            (if j = 0 then dedupEmpty (m' :: rest'')
             else [] :: dedupEmpty (m' :: rest'')) := by
          unfold dedupEmpty
          rw [squashAux_cons, if_neg (by simp [hmE])]
          congr 1
          conv_lhs => rw [hdecomp, hrest']
          cases hjz : j with
          | zero => simp
          | succ j' =>
            rw [List.replicate_succ, List.cons_append, squashAux_cons,
              if_pos (by rfl), if_neg (by simp), squashTrue_replicate_nil]
            rw [if_neg (by simp)]
            congr 1
            rw [squashAux_cons, squashAux_cons, if_neg (by simp [hm'E]),
              if_neg (by simp [hm'E])]
        rw [hcollapse, hdedup]
        cases hjz : j with
        | zero =>
          rw [if_pos rfl]
          rw [joinNL_cons_ne m _ hDne]
          simp
        | succ j' =>
          rw [if_neg (by simp)]
          rw [joinNL_cons_ne m _ (by simp), joinNL_cons_ne [] _ hDne]
          have hmin : min (j' + 1 + 1) 2 = 2 := by omega
          rw [hmin]
          simp

/-- Dropping a prefix keeps the last element. -/
theorem getLast?_dropWhile {α : Type} (p : α → Bool) (l : List α)
    (h : l.dropWhile p ≠ []) : (l.dropWhile p).getLast? = l.getLast? := by
  induction l with
  | nil => exact absurd rfl h
  | cons c l' ih =>
    by_cases hc : p c = true
    · rw [List.dropWhile_cons_of_pos hc] at h ⊢
      have hl' : l' ≠ [] := by
        intro hcon
        rw [hcon] at h
        exact h rfl
      rw [ih h]
      cases l' with
      | nil => exact absurd rfl hl'
      | cons d l'' => rw [List.getLast?_cons_cons]
    · rw [List.dropWhile_cons_of_neg (by simp [hc])]

/-- Both ends of a `TrimSpace` result are non-whitespace. -/
theorem trimSpace_ends (l : Str) :
    (∀ c, (trimSpace l).head? = some c → isUSpace c = false) ∧
    (∀ c, (trimSpace l).getLast? = some c → isUSpace c = false) := by
  constructor
  · intro c hc
    exact headDropWhileFalse isUSpace (trimRightWS l) hc
  · intro c hc
    have hne : trimLeftWS (trimRightWS l) ≠ [] := by
      intro hcon
      unfold trimSpace at hc
      rw [hcon] at hc
      cases hc
    unfold trimSpace trimLeftWS at hc
    rw [getLast?_dropWhile isUSpace (trimRightWS l) hne] at hc
    unfold trimRightWS at hc
    rw [List.getLast?_reverse] at hc
    exact headDropWhileFalse isUSpace l.reverse hc

/-- `TrimSpace` is idempotent. -/
theorem trimSpace_trimSpace (l : Str) : trimSpace (trimSpace l) = trimSpace l :=
  trimSpace_id_of_ends (trimSpace_ends l).1 (trimSpace_ends l).2

/-- `TrimSpace` only removes characters. -/
theorem trimSpace_subset {l : Str} : ∀ c ∈ trimSpace l, c ∈ l := by
  intro c hc
  unfold trimSpace trimLeftWS at hc
  have h1 := List.dropWhile_subset isUSpace hc
  unfold trimRightWS at h1
  rw [List.mem_reverse] at h1
  have h2 := List.dropWhile_subset isUSpace h1
  rw [List.mem_reverse] at h2
  exact h2

/-- `strings.Split` always yields at least one piece. -/
theorem splitOnChar_ne_nil (sep : Char) (cs : Str) : splitOnChar sep cs ≠ [] := by
  cases cs with
  | nil => simp [splitOnChar]
  | cons c cs' =>
    unfold splitOnChar
    by_cases hc : c = sep
    · rw [if_pos hc]
      simp
    · rw [if_neg hc]
      cases hrec : splitOnChar sep cs' with
      | nil => simp [consHead]
      | cons l ls => simp [consHead]

/-- Every piece of `strings.Split` is free of the separator. -/
theorem splitOnChar_piece_free (sep : Char) (cs : Str) :
    ∀ l ∈ splitOnChar sep cs, ∀ c ∈ l, c ≠ sep := by
  induction cs with
  | nil =>
    intro l hl c hc
    simp [splitOnChar] at hl
    subst hl
    cases hc
  | cons x cs' ih =>
    intro l hl c hc
    unfold splitOnChar at hl
    by_cases hx : x = sep
    · rw [if_pos hx] at hl
      rcases List.mem_cons.mp hl with h | h
      · subst h
        cases hc
      · exact ih l h c hc
    · rw [if_neg hx] at hl
      cases hrec : splitOnChar sep cs' with
      | nil => exact absurd hrec (splitOnChar_ne_nil sep cs')
      | cons p ps =>
        rw [hrec] at hl
        unfold consHead at hl
        rcases List.mem_cons.mp hl with h | h
        · subst h
          rcases List.mem_cons.mp hc with h' | h'
          · exact h' ▸ hx
          · exact ih p (hrec ▸ List.mem_cons_self p ps) c h'
        · exact ih l (hrec ▸ List.mem_cons_of_mem p h) c hc

/-- A pointwise-fixed map is the identity. -/
theorem mapCongrId {α : Type} {f : α → α} {X : List α} (h : ∀ l ∈ X, f l = l) :
    X.map f = X := by
  rw [List.map_congr_left h]
  simp

/-- `squashAux` never deletes everything. -/
theorem squashAux_ne_nil {α : Type} (p : α → Bool) (tok : α) (c : α) (cs : List α) :
    squashAux p tok false (c :: cs) ≠ [] := by
  rw [squashAux_cons]
  by_cases hc : p c = true
  · rw [if_pos hc, if_neg (by simp)]
    simp
  · rw [if_neg hc]
    simp

/-- Characters emitted by `squashAux` are the token or outside the class. -/
theorem squashAux_mem_strong {α : Type} {p : α → Bool} {tok : α} {cs : List α} {b : Bool}
    {x : α} (h : x ∈ squashAux p tok b cs) : x = tok ∨ p x = false := by
  induction cs generalizing b with
  | nil => cases h
  | cons c cs ih =>
    rw [squashAux_cons] at h
    by_cases hc : p c = true
    · rw [if_pos hc] at h
      cases b with
      | true =>
        rw [if_pos rfl] at h
        exact ih h
      | false =>
        rw [if_neg (by simp)] at h
        rcases List.mem_cons.mp h with h' | h'
        · exact Or.inl h'
        · exact ih h'
    · rw [if_neg hc] at h
      rcases List.mem_cons.mp h with h' | h'
      · subst h'
        exact Or.inr (by revert hc; cases p x <;> simp)
      · exact ih h'

/-- A nonempty list is not `isEmpty`. -/
theorem isEmpty_false_of_ne {α : Type} {l : List α} (h : l ≠ []) : l.isEmpty = false := by
  cases l with
  | nil => exact absurd rfl h
  | cons a as => rfl

/-- A character outside Go Unicode whitespace is outside horizontal
whitespace. -/
theorem isHW_false_of_isUSpace_false {c : Char} (h : isUSpace c = false) : isHW c = false := by
  cases hhw : isHW c
  · rfl
  · rw [isUSpace_of_isHW hhw] at h
    cases h

/-- When the head is outside the class, the scanner state is irrelevant. -/
theorem squash_state_irrel {α : Type} (p : α → Bool) (tok : α) (cs : List α)
    (h : ∀ z, cs.head? = some z → p z = false) :
    squashAux p tok true cs = squashAux p tok false cs := by
  cases cs with
  | nil => rfl
  | cons c cs' =>
    rw [squashAux_cons, squashAux_cons, if_neg (by simp [h c rfl]), if_neg (by simp [h c rfl])]

/-- The squashed output never has two adjacent characters of the class, and
from the absorbing state it starts outside the class. -/
theorem squash_chain {α : Type} (p : α → Bool) (tok : α) :
    ∀ (b : Bool) (l : List α),
      (squashAux p tok b l).Chain' (fun a c => p a = false ∨ p c = false) ∧
      (b = true → ∀ z, (squashAux p tok b l).head? = some z → p z = false) := by
  intro b l
  induction l generalizing b with
  | nil => exact ⟨List.chain'_nil, fun _ z hz => by cases hz⟩
  | cons c cs ih =>
    by_cases hc : p c = true
    · cases b with
      | true =>
        rw [squashAux_cons, if_pos hc, if_pos rfl]
        exact ⟨(ih true).1, fun _ z hz => (ih true).2 rfl z hz⟩
      | false =>
        rw [squashAux_cons, if_pos hc, if_neg (by simp)]
        constructor
        · rw [List.chain'_cons']
          refine ⟨fun y hy => Or.inr ?_, (ih true).1⟩
          exact (ih true).2 rfl y (Option.mem_def.mp hy)
        · intro hcon
          cases hcon
    · have hcf : p c = false := by
        revert hc
        cases p c <;> simp
      rw [squashAux_cons, if_neg hc]
      constructor
      · rw [List.chain'_cons']
        exact ⟨fun y _ => Or.inl hcf, (ih false).1⟩
      · intro _ z hz
        simp only [List.head?_cons, Option.some.injEq] at hz
        subst hz
        exact hcf

/-- A list whose class characters are all the token, with no two adjacent,
is a fixed point of the squash. -/
theorem squash_fix {α : Type} (p : α → Bool) (tok : α) :
    ∀ l : List α, (∀ c ∈ l, p c = true → c = tok) →
      l.Chain' (fun a c => p a = false ∨ p c = false) →
      squashAux p tok false l = l := by
  intro l
  induction l with
  | nil => exact fun _ _ => rfl
  | cons c cs ih =>
    intro hmem hch
    rw [List.chain'_cons'] at hch
    by_cases hc : p c = true
    · rw [squashAux_cons, if_pos hc, if_neg (by simp),
        hmem c (List.mem_cons_self c cs) hc]
      have hhead : ∀ z, cs.head? = some z → p z = false := by
        intro z hz
        rcases hch.1 z (Option.mem_def.mpr hz) with h | h
        · exact absurd h (by simp [hc])
        · exact h
      rw [squash_state_irrel p tok cs hhead,
        ih (fun d hd hpd => hmem d (List.mem_cons_of_mem c hd) hpd) hch.2]
    · rw [squashAux_cons, if_neg hc,
        ih (fun d hd hpd => hmem d (List.mem_cons_of_mem c hd) hpd) hch.2]

/-- One squash pass is enough: the scanner is idempotent. -/
theorem squash_idem {α : Type} (p : α → Bool) (tok : α) (l : List α) :
    squashAux p tok false (squashAux p tok false l) = squashAux p tok false l :=
  squash_fix p tok _
    (fun c hc hpc => (squashAux_mem_strong hc).resolve_right (by simp [hpc]))
    (squash_chain p tok false l).1

/-- Trailing-empty-line removal keeps a prefix of the list. -/
theorem dropEmptyR_isPrefix (ls : List Str) : dropEmptyR ls <+: ls := by
  unfold dropEmptyR
  have h := List.reverse_prefix.mpr
    (List.dropWhile_suffix (l := ls.reverse) (fun (l : Str) => l.isEmpty))
  rwa [List.reverse_reverse] at h

/-- Boundary trimming keeps a contiguous infix. -/
theorem boundaryTrim_isInfix (ls : List Str) : boundaryTrim ls <:+: ls := by
  unfold boundaryTrim dropEmptyL
  exact List.IsInfix.trans
    (List.IsSuffix.isInfix (List.dropWhile_suffix (fun (l : Str) => l.isEmpty)))
    (List.IsPrefix.isInfix (dropEmptyR_isPrefix ls))

/-- Boundary trimming only removes lines. -/
theorem boundaryTrim_subset {ls : List Str} : ∀ x ∈ boundaryTrim ls, x ∈ ls :=
  fun _ hx => (boundaryTrim_isInfix ls).subset hx

/-- Trailing-empty-line removal only removes lines. -/
theorem dropEmptyR_subset {ls : List Str} : ∀ x ∈ dropEmptyR ls, x ∈ ls :=
  fun _ hx => (dropEmptyR_isPrefix ls).subset hx

/-- The first line after boundary trimming is nonempty. -/
theorem boundaryTrim_head {ls : List Str} {z : Str}
    (h : (boundaryTrim ls).head? = some z) : z ≠ [] := by
  unfold boundaryTrim dropEmptyL at h
  have hz := headDropWhileFalse (fun l => l.isEmpty) (dropEmptyR ls) h
  intro hcon
  subst hcon
  simp at hz

/-- The last line after boundary trimming is nonempty. -/
theorem boundaryTrim_last {ls : List Str} {z : Str}
    (h : (boundaryTrim ls).getLast? = some z) : z ≠ [] := by
  have hne : boundaryTrim ls ≠ [] := by
    intro hcon
    rw [hcon] at h
    cases h
  unfold boundaryTrim dropEmptyL at h hne
  rw [getLast?_dropWhile _ _ hne] at h
  unfold dropEmptyR at h
  rw [List.getLast?_reverse] at h
  have hz := headDropWhileFalse (fun l => l.isEmpty) ls.reverse h
  intro hcon
  subst hcon
  simp at hz

/-- A block with nonempty first and last lines is already boundary-trimmed. -/
theorem boundaryTrim_id {ls : List Str}
    (hh : ∀ z, ls.head? = some z → z ≠ [])
    (hl : ∀ z, ls.getLast? = some z → z ≠ []) : boundaryTrim ls = ls := by
  have hR : dropEmptyR ls = ls := by
    unfold dropEmptyR
    rw [dropWhile_id _ ls.reverse (fun z hz => by
      rw [List.head?_reverse] at hz
      exact isEmpty_false_of_ne (hl z hz))]
    exact List.reverse_reverse ls
  unfold boundaryTrim
  rw [hR]
  unfold dropEmptyL
  exact dropWhile_id _ ls (fun z hz => isEmpty_false_of_ne (hh z hz))

/-- Left-trimming a joined block drops exactly the leading empty lines,
provided each line starts with a non-space character. -/
theorem trimLeft_joinNL : ∀ ms : List Str,
    (∀ m ∈ ms, ∀ c, m.head? = some c → isUSpace c = false) →
    trimLeftWS (joinNL ms) = joinNL (dropEmptyL ms) := by
  intro ms
  induction ms with
  | nil => exact fun _ => rfl
  | cons m rest ih =>
    intro h
    cases rest with
    | nil =>
      cases m with
      | nil => rfl
      | cons c m' =>
        show (c :: m').dropWhile isUSpace = joinNL (dropEmptyL [c :: m'])
        rw [List.dropWhile_cons_of_neg
          (by simp [h (c :: m') (List.mem_cons_self _ _) c rfl])]
        rfl
    | cons r rest' =>
      rw [joinNL_cons_ne m (r :: rest') (by simp)]
      by_cases hm : m = []
      · subst hm
        rw [List.nil_append]
        have hstep : trimLeftWS ('\n' :: joinNL (r :: rest')) =
            trimLeftWS (joinNL (r :: rest')) := by
          show ('\n' :: joinNL (r :: rest')).dropWhile isUSpace = _
          rw [List.dropWhile_cons_of_pos (by decide)]
          rfl
        rw [hstep, ih (fun x hx => h x (List.mem_cons_of_mem _ hx))]
        rfl
      · cases m with
        | nil => exact absurd rfl hm
        | cons c m' =>
          have hstep : trimLeftWS ((c :: m') ++ '\n' :: joinNL (r :: rest')) =
              (c :: m') ++ '\n' :: joinNL (r :: rest') := by
            show ((c :: m') ++ '\n' :: joinNL (r :: rest')).dropWhile isUSpace = _
            rw [List.cons_append, List.dropWhile_cons_of_neg
              (by simp [h (c :: m') (List.mem_cons_self _ _) c rfl])]
          rw [hstep]
          rfl

/-- Appending one line to a nonempty block. -/
theorem joinNL_append_single (X : List Str) (y : Str) (hX : X ≠ []) :
    joinNL (X ++ [y]) = joinNL X ++ '\n' :: y := by
  induction X with
  | nil => exact absurd rfl hX
  | cons x X' ih =>
    cases X' with
    | nil => rfl
    | cons x' X'' =>
      rw [List.cons_append, joinNL_cons_ne x ((x' :: X'') ++ [y]) (by simp),
        ih (by simp), joinNL_cons_ne x (x' :: X'') (by simp)]
      simp

/-- Reversing a joined block reverses the lines and their order. -/
theorem reverse_joinNL : ∀ ms : List Str,
    (joinNL ms).reverse = joinNL ((ms.map List.reverse).reverse) := by
  intro ms
  induction ms with
  | nil => rfl
  | cons m rest ih =>
    cases rest with
    | nil => rfl
    | cons r rest' =>
      have hR : (List.map List.reverse (m :: r :: rest')).reverse =
          ((r :: rest').map List.reverse).reverse ++ [m.reverse] := by
        simp
      rw [hR, joinNL_append_single _ m.reverse (by simp), ← ih,
        joinNL_cons_ne m (r :: rest') (by simp), List.reverse_append,
        List.reverse_cons]
      simp

/-- Emptiness is invariant under line reversal. -/
theorem isEmpty_comp_reverse :
    ((fun (l : Str) => l.isEmpty) ∘ List.reverse) = (fun (l : Str) => l.isEmpty) := by
  funext l
  cases l with
  | nil => rfl
  | cons a as =>
    show (List.reverse (a :: as)).isEmpty = (a :: as).isEmpty
    rw [isEmpty_false_of_ne (by simp), isEmpty_false_of_ne (by simp)]

/-- Leading-empty-line removal on the reversed block is trailing-empty-line
removal on the block. -/
theorem dropEmptyL_reverse (ms : List Str) :
    ((dropEmptyL ((ms.map List.reverse).reverse)).map List.reverse).reverse =
      dropEmptyR ms := by
  show ((((ms.map List.reverse).reverse).dropWhile (fun l => l.isEmpty)).map
      List.reverse).reverse = (ms.reverse.dropWhile (fun l => l.isEmpty)).reverse
  have h1 : (ms.map List.reverse).reverse = ms.reverse.map List.reverse :=
    (List.map_reverse List.reverse ms).symm
  have h2 : (ms.reverse.dropWhile (fun l => l.isEmpty)).map (List.reverse ∘ List.reverse)
      = ms.reverse.dropWhile (fun l => l.isEmpty) :=
    mapCongrId (fun l _ => List.reverse_reverse l)
  rw [h1, List.dropWhile_map, isEmpty_comp_reverse, List.map_map, h2]

/-- Right-trimming a joined block drops exactly the trailing empty lines,
provided each line ends with a non-space character. -/
theorem trimRight_joinNL (ms : List Str)
    (h : ∀ m ∈ ms, ∀ c, m.getLast? = some c → isUSpace c = false) :
    trimRightWS (joinNL ms) = joinNL (dropEmptyR ms) := by
  show ((joinNL ms).reverse.dropWhile isUSpace).reverse = joinNL (dropEmptyR ms)
  rw [reverse_joinNL ms]
  have hcond : ∀ m ∈ (ms.map List.reverse).reverse, ∀ c,
      m.head? = some c → isUSpace c = false := by
    intro m hm c hc
    rw [List.mem_reverse] at hm
    rcases List.mem_map.mp hm with ⟨m₀, hm₀, rfl⟩
    rw [List.head?_reverse] at hc
    exact h m₀ hm₀ c hc
  have hTL := trimLeft_joinNL ((ms.map List.reverse).reverse) hcond
  show (trimLeftWS (joinNL ((ms.map List.reverse).reverse))).reverse = joinNL (dropEmptyR ms)
  rw [hTL, reverse_joinNL]
  rw [dropEmptyL_reverse ms]

/-- `TrimSpace` on a joined block of fully trimmed lines drops exactly the
boundary empty lines. -/
theorem trimSpace_joinNL (ms : List Str)
    (hh : ∀ m ∈ ms, ∀ c, m.head? = some c → isUSpace c = false)
    (hl : ∀ m ∈ ms, ∀ c, m.getLast? = some c → isUSpace c = false) :
    trimSpace (joinNL ms) = joinNL (boundaryTrim ms) := by
  unfold trimSpace
  rw [trimRight_joinNL ms hl,
    trimLeft_joinNL (dropEmptyR ms) (fun m hm => hh m (dropEmptyR_subset m hm))]
  rfl

/-- Collapsing horizontal whitespace preserves non-space boundary
characters. -/
theorem collapseHW_ends (l : Str)
    (hh : ∀ c, l.head? = some c → isUSpace c = false)
    (hl : ∀ c, l.getLast? = some c → isUSpace c = false) :
    (∀ c, (collapseHW l).head? = some c → isUSpace c = false) ∧
    (∀ c, (collapseHW l).getLast? = some c → isUSpace c = false) := by
  cases l with
  | nil => exact ⟨(fun c hc => nomatch hc), (fun c hc => nomatch hc)⟩
  | cons a as =>
    have ha : isUSpace a = false := hh a rfl
    have haH : isHW a = false := isHW_false_of_isUSpace_false ha
    constructor
    · intro c hc
      have hu : collapseHW (a :: as) = a :: squashAux isHW ' ' false as := by
        show squashAux isHW ' ' false (a :: as) = _
        rw [squashAux_cons, if_neg (by simp [haH])]
      rw [hu] at hc
      simp only [List.head?_cons, Option.some.injEq] at hc
      subst hc
      exact ha
    · intro c hc
      cases hlast : (a :: as).getLast? with
      | none => simp at hlast
      | some w =>
        have hwU : isUSpace w = false := hl w hlast
        have hwH : isHW w = false := isHW_false_of_isUSpace_false hwU
        have hq : (collapseHW (a :: as)).getLast? = some w :=
          squashAux_getLast? (a :: as) false hlast hwH
        rw [hq] at hc
        simp only [Option.some.injEq] at hc
        subst hc
        exact hwU

/-- A line whose boundary characters are non-space stays fixed under trimming
after horizontal-whitespace collapsing. -/
theorem trimSpace_collapseHW {l : Str}
    (hh : ∀ c, l.head? = some c → isUSpace c = false)
    (hl : ∀ c, l.getLast? = some c → isUSpace c = false) :
    trimSpace (collapseHW l) = collapseHW l :=
  trimSpace_id_of_ends (collapseHW_ends l hh hl).1 (collapseHW_ends l hh hl).2

/-- The normalizer always yields a boundary-trimmed join of trimmed lines. -/
theorem cleanTPN_join (x : Str) :
    cleanTextPreserveNewlines x =
      joinNL (boundaryTrim ((splitNL (collapseNL (collapseHW x))).map trimSpace)) := by
  show trimSpace (joinNL ((splitNL (collapseNL (collapseHW x))).map trimSpace)) = _
  refine trimSpace_joinNL _ ?_ ?_
  · intro m hm c hc
    rcases List.mem_map.mp hm with ⟨m₀, _, rfl⟩
    exact (trimSpace_ends m₀).1 c hc
  · intro m hm c hc
    rcases List.mem_map.mp hm with ⟨m₀, _, rfl⟩
    exact (trimSpace_ends m₀).2 c hc

/-- Normalizing a joined block of newline-free, trimmed, boundary-nonempty
lines collapses each line, merges empty-line runs, and trims the boundary. -/
theorem cleanTPN_joinNL (ls : List Str) (hne : ls ≠ [])
    (hfree : ∀ l ∈ ls, ∀ c ∈ l, c ≠ '\n')
    (hh : ∀ l ∈ ls, ∀ c, l.head? = some c → isUSpace c = false)
    (hl : ∀ l ∈ ls, ∀ c, l.getLast? = some c → isUSpace c = false)
    (hhz : ∀ z, ls.head? = some z → z ≠ [])
    (hlz : ∀ z, ls.getLast? = some z → z ≠ []) :
    cleanTextPreserveNewlines (joinNL ls) =
      joinNL (boundaryTrim (dedupEmpty (ls.map collapseHW))) := by
  have hXfree : ∀ l ∈ ls.map collapseHW, ∀ c ∈ l, c ≠ '\n' := by
    intro l hlm c hc
    rcases List.mem_map.mp hlm with ⟨l₀, hl₀, rfl⟩
    rcases squashAux_mem hc with h | h
    · subst h
      decide
    · exact hfree l₀ hl₀ c h
  have hXhz : ∀ z, (ls.map collapseHW).head? = some z → z ≠ [] := by
    intro z hz
    cases ls with
    | nil => cases hz
    | cons w ws =>
      simp only [List.map_cons, List.head?_cons, Option.some.injEq] at hz
      subst hz
      have hwne := hhz w rfl
      cases w with
      | nil => exact absurd rfl hwne
      | cons a as => exact squashAux_ne_nil isHW ' ' a as
  have hXlz : ∀ z, (ls.map collapseHW).getLast? = some z → z ≠ [] := by
    intro z hz
    rw [List.getLast?_map] at hz
    cases hlast : ls.getLast? with
    | none =>
      rw [hlast] at hz
      simp at hz
    | some w =>
      rw [hlast] at hz
      injection hz with hz'
      subst hz'
      have hwne := hlz w hlast
      cases w with
      | nil => exact absurd rfl hwne
      | cons a as => exact squashAux_ne_nil isHW ' ' a as
  have hXne : ls.map collapseHW ≠ [] := by
    intro hcon
    rw [List.map_eq_nil_iff] at hcon
    exact hne hcon
  have hYne : dedupEmpty (ls.map collapseHW) ≠ [] := by
    cases hX : ls.map collapseHW with
    | nil => exact absurd hX hXne
    | cons a as => exact squashAux_ne_nil _ _ a as
  have hYfree : ∀ l ∈ dedupEmpty (ls.map collapseHW), ∀ c ∈ l, c ≠ '\n' := by
    intro l hlm c hc
    rcases squashAux_mem hlm with h | h
    · subst h
      cases hc
    · exact hXfree l h c hc
  have hmapTS : (dedupEmpty (ls.map collapseHW)).map trimSpace =
      dedupEmpty (ls.map collapseHW) := by
    apply mapCongrId
    intro l hlm
    rcases squashAux_mem hlm with h | h
    · subst h
      rfl
    · rcases List.mem_map.mp h with ⟨l₀, hl₀, rfl⟩
      exact trimSpace_collapseHW (hh l₀ hl₀) (hl l₀ hl₀)
  show trimSpace (joinNL ((splitNL (collapseNL (collapseHW (joinNL ls)))).map trimSpace)) = _
  rw [collapseHW_joinNL ls,
    cnl_join (ls.map collapseHW).length (ls.map collapseHW) le_rfl hXfree hXhz hXlz,
    splitNL_joinNL (dedupEmpty (ls.map collapseHW)) hYne hYfree, hmapTS]
  refine trimSpace_joinNL _ ?_ ?_
  · intro m hm
    rcases squashAux_mem hm with h | h
    · subst h
      intro c hc
      cases hc
    · rcases List.mem_map.mp h with ⟨l₀, hl₀, rfl⟩
      exact (collapseHW_ends l₀ (hh l₀ hl₀) (hl l₀ hl₀)).1
  · intro m hm
    rcases squashAux_mem hm with h | h
    · subst h
      intro c hc
      cases hc
    · rcases List.mem_map.mp h with ⟨l₀, hl₀, rfl⟩
      exact (collapseHW_ends l₀ (hh l₀ hl₀) (hl l₀ hl₀)).2

/-- A block fixed under line collapsing, empty-line deduplication, and
boundary trimming is a fixed point of the normalizer. -/
theorem cleanTPN_fixed_of (L₂ : List Str)
    (hfree : ∀ l ∈ L₂, ∀ c ∈ l, c ≠ '\n')
    (hh : ∀ l ∈ L₂, ∀ c, l.head? = some c → isUSpace c = false)
    (hl : ∀ l ∈ L₂, ∀ c, l.getLast? = some c → isUSpace c = false)
    (hhz : ∀ z, L₂.head? = some z → z ≠ [])
    (hlz : ∀ z, L₂.getLast? = some z → z ≠ [])
    (hmap : L₂.map collapseHW = L₂)
    (hded : dedupEmpty L₂ = L₂) :
    cleanTextPreserveNewlines (joinNL L₂) = joinNL L₂ := by
  by_cases hnil : L₂ = []
  · subst hnil
    decide
  · rw [cleanTPN_joinNL L₂ hnil hfree hh hl hhz hlz, hmap, hded, boundaryTrim_id hhz hlz]

/-- The output of a second normalization pass is a fixed point of the
normalizer. -/
theorem cleanTPN_third (L₁ : List Str)
    (hfree : ∀ l ∈ L₁, ∀ c ∈ l, c ≠ '\n')
    (hh : ∀ l ∈ L₁, ∀ c, l.head? = some c → isUSpace c = false)
    (hl : ∀ l ∈ L₁, ∀ c, l.getLast? = some c → isUSpace c = false) :
    cleanTextPreserveNewlines (joinNL (boundaryTrim (dedupEmpty (L₁.map collapseHW)))) =
      joinNL (boundaryTrim (dedupEmpty (L₁.map collapseHW))) := by
  have hmem2 : ∀ l ∈ boundaryTrim (dedupEmpty (L₁.map collapseHW)),
      l = [] ∨ ∃ l₀, l₀ ∈ L₁ ∧ l = collapseHW l₀ := by
    intro l hlm
    rcases squashAux_mem (boundaryTrim_subset l hlm) with h | h
    · exact Or.inl h
    · rcases List.mem_map.mp h with ⟨l₀, hl₀, rfl⟩
      exact Or.inr ⟨l₀, hl₀, rfl⟩
  apply cleanTPN_fixed_of
  · intro l hlm c hc
    rcases hmem2 l hlm with rfl | ⟨l₀, hl₀, rfl⟩
    · cases hc
    · rcases squashAux_mem hc with h | h
      · subst h
        decide
      · exact hfree l₀ hl₀ c h
  · intro l hlm
    rcases hmem2 l hlm with rfl | ⟨l₀, hl₀, rfl⟩
    · intro c hc
      cases hc
    · exact (collapseHW_ends l₀ (hh l₀ hl₀) (hl l₀ hl₀)).1
  · intro l hlm
    rcases hmem2 l hlm with rfl | ⟨l₀, hl₀, rfl⟩
    · intro c hc
      cases hc
    · exact (collapseHW_ends l₀ (hh l₀ hl₀) (hl l₀ hl₀)).2
  · exact fun z hz => boundaryTrim_head hz
  · exact fun z hz => boundaryTrim_last hz
  · apply mapCongrId
    intro l hlm
    rcases hmem2 l hlm with rfl | ⟨l₀, _, rfl⟩
    · rfl
    · exact squash_idem isHW ' ' l₀
  · exact squash_fix (fun l => l.isEmpty) [] _
      (fun c _ hc => List.isEmpty_iff.mp hc)
      ( List.Chain'.infix
        (squash_chain (fun l => l.isEmpty) ([] : Str) false (L₁.map collapseHW)).1
        (boundaryTrim_isInfix (dedupEmpty (L₁.map collapseHW))))

/-- C6 counterexample: the normalizer is not idempotent.  A blank line that
contains a single space hides a newline run from the collapse step; the
per-line trim then exposes a three-newline run that only a second application
collapses. -/
theorem clean_text_not_idempotent :
    cleanTextPreserveNewlines (lit "a\n \n \nb") = lit "a\n\n\nb" ∧
    cleanTextPreserveNewlines (cleanTextPreserveNewlines (lit "a\n \n \nb")) = lit "a\n\nb" ∧
    cleanTextPreserveNewlines (cleanTextPreserveNewlines (lit "a\n \n \nb")) ≠
      cleanTextPreserveNewlines (lit "a\n \n \nb") := by
  refine ⟨by decide, by decide, by decide⟩

/-- C6 amended: although `cleanTextPreserveNewlines` is not idempotent, two
applications reach a fixed point: for every input, a third application
returns the second application's output unchanged. -/
theorem clean_text_twice_fixed (cs : Str) :
    cleanTextPreserveNewlines (cleanTextPreserveNewlines cs) =
      cleanTextPreserveNewlines
        (cleanTextPreserveNewlines (cleanTextPreserveNewlines cs)) := by
  have hA := cleanTPN_join cs
  have hP1 : ∀ l ∈ boundaryTrim ((splitNL (collapseNL (collapseHW cs))).map trimSpace),
      ∀ c ∈ l, c ≠ '\n' := by
    intro l hlm c hc
    rcases List.mem_map.mp (boundaryTrim_subset l hlm) with ⟨m₀, hm₀, rfl⟩
    exact splitOnChar_piece_free '\n' (collapseNL (collapseHW cs)) m₀ hm₀ c
      (trimSpace_subset c hc)
  have hP2 : ∀ l ∈ boundaryTrim ((splitNL (collapseNL (collapseHW cs))).map trimSpace),
      ∀ c, l.head? = some c → isUSpace c = false := by
    intro l hlm
    rcases List.mem_map.mp (boundaryTrim_subset l hlm) with ⟨m₀, _, rfl⟩
    exact (trimSpace_ends m₀).1
  have hP3 : ∀ l ∈ boundaryTrim ((splitNL (collapseNL (collapseHW cs))).map trimSpace),
      ∀ c, l.getLast? = some c → isUSpace c = false := by
    intro l hlm
    rcases List.mem_map.mp (boundaryTrim_subset l hlm) with ⟨m₀, _, rfl⟩
    exact (trimSpace_ends m₀).2
  by_cases hnil : boundaryTrim ((splitNL (collapseNL (collapseHW cs))).map trimSpace) = []
  · rw [hA, hnil]
    decide
  · rw [hA, cleanTPN_joinNL _ hnil hP1 hP2 hP3
      (fun z hz => boundaryTrim_head hz) (fun z hz => boundaryTrim_last hz)]
    exact (cleanTPN_third _ hP1 hP2 hP3).symm

end SumarizaAI
